import Mathlib

/-!
Shallow embedding of the mpv demuxer packet-cache core (src/demux/demux.c).

Timestamps are C doubles in the source; MP_NOPTS_VALUE is the most negative
representable value and every real media timestamp exceeds it. We model a
timestamp as `Option ℚ`, with `none` playing the role of MP_NOPTS_VALUE; raw
C comparisons against the sentinel therefore treat `none` as -∞.

Byte counters are `size_t` in the source; all subtractions performed by the
code happen only when the amount subtracted is known (by the queue-accounting
invariant) not to exceed the counter, so `ℕ` with truncated subtraction agrees
with the C semantics on every state the code reaches.
-/

namespace Demux

/- The Batteries rational arithmetic operations are `@[irreducible]`, which
blocks `decide`/`rfl` evaluation of the model on concrete states; restore
the default reducibility inside this file. -/
attribute [local semireducible] Rat.add Rat.sub Rat.mul Rat.inv

/-- A timestamp: `none` is MP_NOPTS_VALUE. -/
abbrev TS := Option ℚ

/-- Raw C `<` on doubles where `none` stands for the most negative value. -/
def tsLt : TS → TS → Bool
  | none, none => false
  | none, some _ => true
  | some _, none => false
  | some a, some b => a < b

/-- Raw C `<=` on doubles where `none` stands for the most negative value. -/
def tsLe : TS → TS → Bool
  | none, _ => true
  | some _, none => false
  | some a, some b => a ≤ b

/-- `PTS_OR_DEF(a, def)`: return `a`, or if that is NOPTS, `def`. -/
def ptsOrDef (a d : TS) : TS :=
  match a with
  | none => d
  | some x => some x

/-- `MP_PTS_MIN(a, b)`: if one value is NOPTS, pick the other one. -/
def mpPtsMin (a b : TS) : TS :=
  match a, b with
  | none, b => b
  | a, none => a
  | some x, some y => some (min x y)

/-- `MP_PTS_MAX(a, b)`: if one value is NOPTS, pick the other one. -/
def mpPtsMax (a b : TS) : TS :=
  match a, b with
  | none, b => b
  | a, none => a
  | some x, some y => some (max x y)

/-- `MP_ADD_PTS(a, b)`: shift a timestamp, NOPTS stays NOPTS. -/
def mpAddPts (a : TS) (b : ℚ) : TS := a.map (· + b)

inductive StreamType where
  | video
  | audio
  | sub
  | unknown
deriving DecidableEq, Repr

/-- One demux packet (struct demux_packet). `totalSize` carries the value of
`demux_packet_estimate_total_size`, which is defined outside this file's
source (it is a pure function of the packet, so we carry its value as data).
`pstart`/`pend` are the C fields `start`/`end` (`end` is a Lean keyword). -/
structure Packet where
  pts : TS
  dts : TS
  pos : ℤ
  keyframe : Bool
  segmented : Bool
  pstart : TS
  pend : TS
  len : ℕ
  totalSize : ℕ
deriving DecidableEq, Repr

/-- Per-stream queue state (struct demux_stream). The singly linked packet
list `queue_head .. queue_tail` is the list `queue`; the `reader_head`
pointer is the index of the packet it points at (`none` = NULL). -/
structure DemuxStream where
  type : StreamType
  selected : Bool
  active : Bool
  eof : Bool
  need_refresh : Bool
  refreshing : Bool
  correct_dts : Bool
  correct_pos : Bool
  fw_packs : ℕ
  fw_bytes : ℕ
  bw_bytes : ℕ
  last_pos : ℤ
  last_dts : TS
  last_ts : TS
  back_pts : TS
  queue : List Packet
  base_ts : TS
  last_br_ts : TS
  last_br_bytes : ℕ
  bitrate : ℚ
  reader_head : Option ℕ
  skip_to_keyframe : Bool
  attached_picture_added : Bool
  attached_picture : Option Packet
  ignore_eof : Bool
deriving DecidableEq, Repr

/-- The packets strictly before `reader_head` (the back buffer). -/
def bwList (ds : DemuxStream) : List Packet :=
  match ds.reader_head with
  | none => ds.queue
  | some r => ds.queue.take r

/-- The packets from `reader_head` to the tail (the forward buffer). -/
def fwList (ds : DemuxStream) : List Packet :=
  match ds.reader_head with
  | none => []
  | some r => ds.queue.drop r

/-- Sum of `demux_packet_estimate_total_size` over a packet list. -/
def sumSize (l : List Packet) : ℕ := (l.map Packet.totalSize).sum

/-- `recompute_keyframe_target_pts(dp)`: scan forward from `dp` (here: over
the suffix of the queue starting at `dp`), enter the first keyframe range,
and return the minimum PTS-or-DTS over its packets, honoring segmented-range
clipping. -/
def recompute_keyframe_target_pts (l : List Packet) : TS :=
  go false none l
where
  go (inRange : Bool) (res : TS) : List Packet → TS
    | [] => res
    | dp :: rest =>
      if dp.keyframe ∧ inRange then
        res
      else
        let inRange := inRange ∨ dp.keyframe
        let res :=
          if inRange then
            let ts := ptsOrDef dp.pts dp.dts
            let ts := if dp.segmented ∧ (tsLt ts dp.pstart ∨ tsLt dp.pend ts)
              then none else ts
            mpPtsMin res ts
          else res
        go inRange res rest

/-- The effective timestamp of an appended packet used to update `last_ts`:
DTS, else PTS, clamped to the segmented end. (The PTS-from-DTS heuristic for
non-video packets cannot change this value, since it only fills an absent
PTS with the DTS.) -/
def effTs (dp : Packet) : TS :=
  let ts := if dp.dts = none then dp.pts else dp.dts
  if dp.segmented then mpPtsMin ts dp.pend else ts

/-- The refresh-state update at the top of `demux_add_packet`: while
`refreshing`, decide whether the resume point was reached. -/
def addRefreshStep (ds : DemuxStream) (dp : Packet) : DemuxStream :=
  if ds.refreshing then
    { ds with refreshing :=
        if ds.correct_dts then tsLt dp.dts ds.last_dts
        else if ds.correct_pos then decide (dp.pos < ds.last_pos)
        else false }
  else ds

/-- Monotonicity-flag and last-position bookkeeping of `demux_add_packet`. -/
def addMonoStep (ds : DemuxStream) (dp : Packet) : DemuxStream :=
  { ds with
    correct_pos := ds.correct_pos && decide (0 ≤ dp.pos) && decide (ds.last_pos < dp.pos),
    correct_dts := ds.correct_dts && dp.dts.isSome && tsLt ds.last_dts dp.dts,
    last_pos := dp.pos,
    last_dts := dp.dts }

/-- `demux_add_packet`: possibly point `reader_head` at the incoming packet
(which will be appended at index `ds.queue.length`). -/
def addReaderHeadStep (ds : DemuxStream) (dp : Packet) : DemuxStream :=
  if ds.reader_head = none ∧ (¬ds.skip_to_keyframe ∨ dp.keyframe) then
    { ds with reader_head := some ds.queue.length, skip_to_keyframe := false }
  else ds

/-- `demux_add_packet`: byte/packet accounting for the incoming packet. -/
def addAccountStep (ds : DemuxStream) (bytes : ℕ) : DemuxStream :=
  if ds.reader_head.isSome then
    { ds with fw_packs := ds.fw_packs + 1, fw_bytes := ds.fw_bytes + bytes }
  else
    { ds with bw_bytes := ds.bw_bytes + bytes }

/-- `demux_add_packet`: for non-video packets with no PTS, copy the DTS into
the PTS. (The C code patches the packet in place after enqueueing it; the
queued packet carries the patched PTS.) -/
def patchPts (type : StreamType) (dp : Packet) : Packet :=
  if type ≠ StreamType.video ∧ dp.pts = none then { dp with pts := dp.dts } else dp

/-- `demux_add_packet`: append to the queue tail. -/
def addEnqueueStep (ds : DemuxStream) (dp : Packet) : DemuxStream :=
  { ds with queue := ds.queue ++ [dp] }

/-- `demux_add_packet`: recompute `back_pts` when a keyframe arrives and it
was NOPTS. -/
def addBackPtsStep (ds : DemuxStream) (dp : Packet) : DemuxStream :=
  if ds.back_pts = none ∧ dp.keyframe then
    { ds with back_pts := recompute_keyframe_target_pts ds.queue }
  else ds

/-- `demux_add_packet`: clear the per-stream EOF flag unless `ignore_eof`.
(The caller also clears the cache-global `eof`/`last_eof` in this case.) -/
def addEofStep (ds : DemuxStream) : DemuxStream :=
  if ¬ds.ignore_eof then { ds with eof := false } else ds

/-- `demux_add_packet`: update `last_ts` from the packet's effective
timestamp with the 10-second reset window. -/
def addLastTsStep (ds : DemuxStream) (ts : TS) : DemuxStream :=
  if ts ≠ none ∧ (tsLt ds.last_ts ts ∨ tsLt (mpAddPts ts 10) ds.last_ts) then
    { ds with last_ts := ts }
  else ds

/-- `demux_add_packet`: seed `base_ts` with `last_ts` if it was NOPTS. -/
def addBaseTsStep (ds : DemuxStream) : DemuxStream :=
  if ds.base_ts = none then { ds with base_ts := ds.last_ts } else ds

/-- The append path of `demux_add_packet` (everything after the drop checks
passed), in source order. -/
def addAppend (ds : DemuxStream) (dp0 : Packet) : DemuxStream :=
  let ds1 := addMonoStep ds dp0
  let ds2 := addReaderHeadStep ds1 dp0
  let ds3 := addAccountStep ds2 dp0.totalSize
  let dp := patchPts ds3.type dp0
  let ds4 := addEnqueueStep ds3 dp
  let ds5 := addBackPtsStep ds4 dp
  let ds6 := addEofStep ds5
  let ds7 := addLastTsStep ds6 (effTs dp)
  addBaseTsStep ds7

/-- Core of `demux_add_packet` for one stream, starting at the lock
acquisition. `seeking` is `in->seeking`. Returns the new stream state and
whether the packet was appended (false = freed/dropped). The global
`eof`/`last_eof` clearing and the wakeup signalling are handled by the
caller. -/
def demux_add_packet (seeking : Bool) (ds : DemuxStream) (dp : Packet) :
    DemuxStream × Bool :=
  let drop := ds.refreshing
  let ds1 := addRefreshStep ds dp
  if ¬ds1.selected ∨ ds1.need_refresh ∨ seeking ∨ drop then
    (ds1, false)
  else
    (addAppend ds1 dp, true)

/-- Replace the element at index `n` (identity when out of range). -/
def setIdx (x : α) : ℕ → List α → List α
  | _, [] => []
  | 0, _ :: xs => x :: xs
  | n+1, y :: xs => y :: setIdx x n xs

/-- `ds->queue_head && ds->queue_head != ds->reader_head`: the queue is
nonempty and its first packet is not the one `reader_head` points at. -/
def pruneCandidate (ds : DemuxStream) : Bool :=
  !ds.queue.isEmpty && decide (ds.reader_head ≠ some 0)

/-- The earliest-timestamp stream selection of `prune_old_packets`: among
streams whose queue head lies strictly before `reader_head`, pick the one
with the smallest PTS-or-DTS on its head packet (a NOPTS head timestamp is
overridden by any later candidate). Returns the stream index. -/
def selectEarliest (streams : List DemuxStream) : Option ℕ :=
  go streams 0 none none
where
  go : List DemuxStream → ℕ → TS → Option ℕ → Option ℕ
  | [], _, _, best => best
  | ds :: rest, n, bestTs, best =>
    match ds.queue with
    | [] => go rest (n+1) bestTs best
    | dp :: _ =>
      if pruneCandidate ds then
        let ts := ptsOrDef dp.dts dp.pts
        if bestTs = none ∨ (ts ≠ none ∧ tsLt ts bestTs) then
          go rest (n+1) ts (some n)
        else go rest (n+1) bestTs best
      else go rest (n+1) bestTs best

/-- The `next_seek_target` scan of `prune_old_packets`: walk the queue; at
every keyframe other than the queue head, record it as the tentative target
and its keyframe-range PTS as the tentative `back_pts`; stop at the first
one whose range PTS is not NOPTS. Returns (target index, new `back_pts`). -/
def findNextSeekTarget : List Packet → ℕ → Option ℕ × TS
  | [], _ => (none, none)
  | dp :: rest, idx =>
    if dp.keyframe ∧ idx ≠ 0 then
      let bp := recompute_keyframe_target_pts (dp :: rest)
      if bp ≠ none then (some idx, bp)
      else
        match findNextSeekTarget rest (idx+1) with
        | (none, _) => (some idx, none)
        | r => r
    else findNextSeekTarget rest (idx+1)

/-- The drop loop of `prune_old_packets`: drop packets from the queue head
while the head is neither `reader_head` nor `next_seek_target` (pointer
identity becomes index identity; indices shift down as packets drop).
Returns (new queue, new reader_head, bytes dropped). -/
def dropLoop : List Packet → Option ℕ → Option ℕ → ℕ →
    List Packet × Option ℕ × ℕ
  | [], rh, _, dropped => ([], rh, dropped)
  | dp :: rest, rh, nst, dropped =>
    if rh = some 0 ∨ nst = some 0 then (dp :: rest, rh, dropped)
    else dropLoop rest (rh.map (· - 1)) (nst.map (· - 1)) (dropped + dp.totalSize)

/-- One iteration of the outer prune loop applied to the chosen stream:
reset/recompute `back_pts`, then drop the head run. Returns the stream and
the dropped byte count (the amount subtracted from `buffered`). -/
def pruneStream (ds : DemuxStream) : DemuxStream × ℕ :=
  let r := findNextSeekTarget ds.queue 0
  let d := dropLoop ds.queue ds.reader_head r.1 0
  ({ ds with queue := d.1, reader_head := d.2.1, back_pts := r.2,
             bw_bytes := ds.bw_bytes - d.2.2 }, d.2.2)

/-- The outer `while (buffered > max_bytes_bw)` loop of `prune_old_packets`,
with explicit fuel. `none` models the `assert(earliest_stream >= 0)` firing
(no prunable stream although `buffered` demands pruning); with fuel above
the total number of queued packets, fuel exhaustion cannot be the cause. -/
def pruneLoop : ℕ → ℕ → List DemuxStream → ℕ → Option (List DemuxStream)
  | 0, _, _, _ => none
  | fuel+1, maxbw, streams, buffered =>
    if buffered ≤ maxbw then some streams
    else
      match selectEarliest streams with
      | none => none
      | some n =>
        match streams[n]? with
        | none => none
        | some ds =>
          let p := pruneStream ds
          pruneLoop fuel maxbw (setIdx p.1 n streams) (buffered - p.2)

/-- Total number of queued packets across all streams (a fuel bound). -/
def totalQueueLen (streams : List DemuxStream) : ℕ :=
  (streams.map (fun ds => ds.queue.length)).sum


/-- Seek flags (SEEK_FORWARD, SEEK_FACTOR, SEEK_HR). -/
structure SeekFlags where
  forward : Bool
  factor : Bool
  hr : Bool
deriving DecidableEq, Repr

/-- Cache-global state (struct demux_internal plus the consumer-visible
`d_user->filepos` and the seekability facts of the producer demuxer that the
cache reads: `demux->seekable`, `demux->partially_seekable` and whether
`demux->desc->seek` is provided). -/
structure DemuxInternal where
  streams : List DemuxStream
  warned_queue_overflow : Bool
  last_eof : Bool
  eof : Bool
  idle : Bool
  min_secs : ℚ
  max_bytes : ℕ
  max_bytes_bw : ℕ
  seekable_cache : Bool
  initial_state : Bool
  tracks_switched : Bool
  seeking : Bool
  seek_flags : SeekFlags
  seek_pts : TS
  ref_pts : TS
  ts_offset : ℚ
  filepos : ℤ
  seekable : Bool
  partially_seekable : Bool
  has_seek_fn : Bool

/-- `ds_clear_reader_state`. -/
def ds_clear_reader_state (ds : DemuxStream) : DemuxStream :=
  { ds with reader_head := none, base_ts := none, last_br_ts := none,
            last_br_bytes := 0, bitrate := -1, skip_to_keyframe := false,
            attached_picture_added := false }

/-- `ds_clear_demux_state`. -/
def ds_clear_demux_state (ds : DemuxStream) : DemuxStream :=
  let ds := ds_clear_reader_state ds
  { ds with queue := [], fw_packs := 0, fw_bytes := 0, bw_bytes := 0,
            eof := false, active := false, refreshing := false,
            need_refresh := false, correct_dts := true, correct_pos := true,
            last_pos := -1, last_ts := none, last_dts := none,
            back_pts := none }

/-- `clear_reader_state` (user-thread side). -/
def clear_reader_state (din : DemuxInternal) : DemuxInternal :=
  { din with streams := din.streams.map ds_clear_reader_state,
             warned_queue_overflow := false, filepos := -1 }

/-- `clear_demux_state`. -/
def clear_demux_state (din : DemuxInternal) : DemuxInternal :=
  let din := clear_reader_state din
  { din with streams := din.streams.map ds_clear_demux_state,
             eof := false, last_eof := false, idle := true }

/-- `prune_old_packets`: `none` models the assertion firing. -/
def prune_old_packets (din : DemuxInternal) : Option DemuxInternal :=
  let buffered := (din.streams.map DemuxStream.bw_bytes).sum
  match pruneLoop (totalQueueLen din.streams + 1) din.max_bytes_bw
      din.streams buffered with
  | none => none
  | some s => some { din with streams := s }

/-- `dequeue_packet`: pointer advance and queue accounting for the packet at
index `i`. -/
def dequeueAdvanceStep (ds : DemuxStream) (i : ℕ) (bytes : ℕ) : DemuxStream :=
  { ds with
    reader_head := if i + 1 < ds.queue.length then some (i+1) else none,
    fw_packs := ds.fw_packs - 1,
    fw_bytes := ds.fw_bytes - bytes,
    bw_bytes := ds.bw_bytes + bytes }

/-- `dequeue_packet`: the keyframe-gated sliding bitrate estimator. -/
def dequeueBitrateStep (ds : DemuxStream) (pkt : Packet) (ts : TS) : DemuxStream :=
  let ds :=
    if pkt.keyframe then
      match ts with
      | none => ds
      | some t =>
        match ds.last_br_ts with
        | none =>
          { ds with bitrate := -1, last_br_ts := some t, last_br_bytes := 0 }
        | some b =>
          if t - b < 0 then
            { ds with bitrate := -1, last_br_ts := some t, last_br_bytes := 0 }
          else if (1:ℚ)/2 ≤ t - b then
            { ds with bitrate := (ds.last_br_bytes : ℚ) / (t - b),
                      last_br_ts := some t, last_br_bytes := 0 }
          else ds
    else ds
  { ds with last_br_bytes := ds.last_br_bytes + pkt.len }

inductive DequeueResult where
  /-- The attached-picture early return (delivered at most once, no
  timestamp offset, no filepos update, no pruning). -/
  | attached (pkt : Packet) (ds : DemuxStream)
  /-- Nothing to return. -/
  | empty (ds : DemuxStream)
  /-- A packet detached from the forward buffer. -/
  | normal (pkt : Packet) (ds : DemuxStream)

/-- Per-stream part of `dequeue_packet` (before the consumer-global filepos
update, timestamp offsetting and pruning). -/
def dequeue_packet_core (ds : DemuxStream) : DequeueResult :=
  match ds.attached_picture with
  | some pic =>
    if ds.attached_picture_added then
      DequeueResult.empty { ds with eof := true }
    else
      DequeueResult.attached pic
        { ds with eof := true, attached_picture_added := true }
  | none =>
    match ds.reader_head with
    | none => DequeueResult.empty ds
    | some i =>
      match ds.queue[i]? with
      | none => DequeueResult.empty ds
      | some pkt =>
        let ds := dequeueAdvanceStep ds i pkt.totalSize
        let ts := ptsOrDef pkt.dts pkt.pts
        let ds := if ts ≠ none then { ds with base_ts := ts } else ds
        let ds := dequeueBitrateStep ds pkt ts
        DequeueResult.normal pkt ds

/-- Apply `in->ts_offset` to the copy handed to the consumer. -/
def applyTsOffset (off : ℚ) (pkt : Packet) : Packet :=
  { pkt with pts := mpAddPts pkt.pts off, dts := mpAddPts pkt.dts off,
             pstart := mpAddPts pkt.pstart off, pend := mpAddPts pkt.pend off }

/-- The consumer-visible filepos update of `dequeue_packet`: adopt the
packet position only when it is at or past the current filepos. -/
def dequeueFileposStep (din : DemuxInternal) (pos : ℤ) : DemuxInternal :=
  if din.filepos ≤ pos then { din with filepos := pos } else din

/-- `dequeue_packet` on stream `n`. The outer `none` models the pruner
assertion firing during the trailing `prune_old_packets` call. -/
def dequeue_packet (din : DemuxInternal) (n : ℕ) :
    Option (Option Packet × DemuxInternal) :=
  match din.streams[n]? with
  | none => some (none, din)
  | some ds =>
    match dequeue_packet_core ds with
    | DequeueResult.empty ds' =>
      some (none, { din with streams := setIdx ds' n din.streams })
    | DequeueResult.attached pkt ds' =>
      some (some pkt, { din with streams := setIdx ds' n din.streams })
    | DequeueResult.normal pkt ds' =>
      let din := { din with streams := setIdx ds' n din.streams }
      let din := dequeueFileposStep din pkt.pos
      match prune_old_packets din with
      | none => none
      | some din' => some (some (applyTsOffset din.ts_offset pkt), din')

/-- `recompute_buffers`: rebuild `fw_packs`/`fw_bytes`/`bw_bytes` by walking
the queue, switching from back to forward at the packet `reader_head`
points at. -/
def recompute_buffers (ds : DemuxStream) : DemuxStream :=
  let r := go ds.reader_head ds.queue 0 true 0 0 0
  { ds with fw_packs := r.1, fw_bytes := r.2.1, bw_bytes := r.2.2 }
where
  go (rh : Option ℕ) : List Packet → ℕ → Bool → ℕ → ℕ → ℕ → ℕ × ℕ × ℕ
  | [], _, _, packs, fw, bw => (packs, fw, bw)
  | dp :: rest, idx, inBack, packs, fw, bw =>
    let inBack := inBack && decide (rh ≠ some idx)
    if inBack then go rh rest (idx+1) inBack packs fw (bw + dp.totalSize)
    else go rh rest (idx+1) inBack (packs+1) (fw + dp.totalSize) bw


/-- `find_seek_target`: scan the queue for the best keyframe to seek to.
Only keyframes with a non-NOPTS keyframe-range PTS are candidates. With
SEEK_FORWARD, only ranges at/after `pts` qualify and the closest wins;
otherwise the latest range at/before `pts` wins, with the closest range
after `pts` as fallback. Returns the index of the chosen packet. -/
def find_seek_target (queue : List Packet) (pts : ℚ) (flags : SeekFlags) :
    Option ℕ :=
  go queue 0 none none
where
  go : List Packet → ℕ → Option ℚ → Option ℕ → Option ℕ
  | [], _, _, target => target
  | dp :: rest, idx, targetDiff, target =>
    if ¬dp.keyframe then go rest (idx+1) targetDiff target
    else
      match recompute_keyframe_target_pts (dp :: rest) with
      | none => go rest (idx+1) targetDiff target
      | some rangePts =>
        let diff := if flags.forward then -(rangePts - pts) else rangePts - pts
        if flags.forward ∧ 0 < diff then go rest (idx+1) targetDiff target
        else
          let skip : Bool :=
            match targetDiff with
            | none => false
            | some td =>
              if diff ≤ 0 then decide (td ≤ 0 ∧ diff ≤ td)
              else decide (td ≤ diff)
          if skip then go rest (idx+1) targetDiff target
          else go rest (idx+1) (some diff) (some idx)

/-- DEMUXER_CTRL_GET_READER_STATE result (struct demux_ctrl_reader_state). -/
structure ReaderState where
  eof : Bool
  idle : Bool
  underrun : Bool
  ts_reader : TS
  ts_duration : ℚ
  ts_end : TS
  seek_ranges : List (TS × TS)

/-- A queue that contributes to the reader state:
`ds->active && !(!ds->queue_head && ds->eof) && !ds->ignore_eof`. -/
def dsContributing (ds : DemuxStream) : Bool :=
  ds.active && !(ds.queue.isEmpty && ds.eof) && !ds.ignore_eof

/-- Accumulator of the reader-state stream scan. -/
structure RSAcc where
  underrun : Bool
  ts_reader : TS
  ts_min : TS
  ts_max : TS
  seek_ok : Bool
  any_packets : Bool

/-- One stream of the reader-state scan. -/
def rsStep (acc : RSAcc) (ds : DemuxStream) : RSAcc :=
  if dsContributing ds then
    { underrun := acc.underrun || (decide (ds.reader_head = none) && !ds.eof),
      ts_reader := mpPtsMax acc.ts_reader ds.base_ts,
      ts_min := mpPtsMax acc.ts_min ds.back_pts,
      ts_max := mpPtsMax acc.ts_max ds.last_ts,
      seek_ok := acc.seek_ok &&
        !(decide (ds.back_pts = none) || decide (ds.last_ts = none)),
      any_packets := acc.any_packets || !ds.queue.isEmpty }
  else acc

/-- The reader-state stream scan over all streams. -/
def rsScan (din : DemuxInternal) : RSAcc :=
  din.streams.foldl rsStep
    { underrun := false, ts_reader := none, ts_min := none, ts_max := none,
      seek_ok := din.seekable_cache && !din.seeking, any_packets := false }

/-- `ts_duration` finalization: set from `ts_max - ts_reader` when the
reader position is known and not past `ts_max`, then forced to 0 while a
seek is queued or no contributing queue holds packets. `-1` is the C
initialization value (unknown). -/
def rsDuration (seeking any_packets : Bool) (ts_reader ts_max : TS) : ℚ :=
  let dur : ℚ :=
    match ts_reader, ts_max with
    | some r, some m => if r ≤ m then m - r else -1
    | _, _ => -1
  if seeking || !any_packets then 0 else dur

/-- The DEMUXER_CTRL_GET_READER_STATE branch of `cached_demux_control`. -/
def get_reader_state (din : DemuxInternal) : ReaderState :=
  let a := rsScan din
  let idle := (din.idle && !a.underrun) || din.last_eof
  let ts_min := mpAddPts a.ts_min din.ts_offset
  let ts_max := mpAddPts a.ts_max din.ts_offset
  let ts_reader := mpAddPts a.ts_reader din.ts_offset
  { eof := din.last_eof,
    idle := idle,
    underrun := a.underrun && !idle,
    ts_reader := ts_reader,
    ts_duration := rsDuration din.seeking a.any_packets ts_reader ts_max,
    ts_end := ts_max,
    seek_ranges :=
      if a.seek_ok ∧ ts_min ≠ none ∧ tsLt ts_min ts_max then [(ts_min, ts_max)]
      else [] }

/-- The seek-target adjustment of `try_seek_cache`: for non-hr seeks, move
the target to the first selected video stream's chosen keyframe range PTS
and clear SEEK_FORWARD, when such a target exists. -/
def videoAdjust (streams : List DemuxStream) (pts : ℚ) (flags : SeekFlags) :
    ℚ × SeekFlags :=
  if flags.hr then (pts, flags)
  else
    match streams.find? (fun ds => ds.selected && decide (ds.type = StreamType.video)) with
    | none => (pts, flags)
    | some ds =>
      match find_seek_target ds.queue pts flags with
      | none => (pts, flags)
      | some i =>
        match recompute_keyframe_target_pts (ds.queue.drop i) with
        | none => (pts, flags)
        | some tp => (tp, { flags with forward := false })

/-- Per-stream conclusion of `try_seek_cache`: move `reader_head` to the
found target, request keyframe skipping when there is none, and rebuild the
byte accounting. -/
def seekStream (pts : ℚ) (flags : SeekFlags) (ds : DemuxStream) : DemuxStream :=
  let target := find_seek_target ds.queue pts flags
  recompute_buffers
    { ds with reader_head := target, skip_to_keyframe := target.isNone }

/-- `try_seek_cache`; `none` models returning false (cache miss). -/
def try_seek_cache (din : DemuxInternal) (pts : ℚ) (flags : SeekFlags) :
    Option DemuxInternal :=
  if flags.factor ∨ ¬din.seekable_cache then none
  else if din.seeking then none
  else
    let rstate := get_reader_state din
    let r := rstate.seek_ranges.headD (none, none)
    let rlo := mpAddPts r.1 (-din.ts_offset)
    let rhi := mpAddPts r.2 (-din.ts_offset)
    if tsLt (some pts) rlo ∨ tsLt rhi (some pts) then none
    else
      let din := clear_reader_state din
      let a := videoAdjust din.streams pts flags
      some { din with streams := din.streams.map (seekStream a.1 a.2) }

/-- `demux_seek`, modeled to the point where the seek is either served from
the cache or queued for the producer thread (`execute_seek` performs the
producer I/O outside this model). -/
def demux_seek (din : DemuxInternal) (seek_pts : TS) (flags : SeekFlags) :
    ℤ × DemuxInternal :=
  if ¬din.seekable then (0, din)
  else
    match seek_pts with
    | none => (0, din)
    | some p =>
      let p := if ¬flags.factor then p - din.ts_offset else p
      match try_seek_cache din p flags with
      | some din' => (1, din')
      | none =>
        let din := clear_demux_state din
        (1, { din with seeking := true, seek_flags := flags,
                       seek_pts := some p })


/-- Accumulator of the `get_refresh_seek_pts` stream scan. -/
structure RefreshAcc where
  start_ts : TS
  needed : Bool
  normal : Bool
  possible : Bool

/-- One stream of the `get_refresh_seek_pts` scan (selected streams only). -/
def refreshStep (acc : RefreshAcc) (ds : DemuxStream) : RefreshAcc :=
  if ds.selected then
    { start_ts :=
        if ds.type = StreamType.video ∨ ds.type = StreamType.audio then
          mpPtsMin acc.start_ts ds.base_ts
        else acc.start_ts,
      needed := acc.needed || ds.need_refresh,
      normal := acc.normal && ds.need_refresh,
      possible := acc.possible && (ds.correct_dts || ds.correct_pos) }
  else acc

/-- The `get_refresh_seek_pts` scan over all streams. -/
def refreshScan (din : DemuxInternal) : RefreshAcc :=
  din.streams.foldl refreshStep
    { start_ts := din.ref_pts, needed := false, normal := true, possible := true }

/-- The first loop of `get_refresh_seek_pts` also clears `need_refresh` on
every selected stream. -/
def clearNeedRefresh (ds : DemuxStream) : DemuxStream :=
  if ds.selected then { ds with need_refresh := false } else ds

/-- The second loop of `get_refresh_seek_pts`: streams which ever saw a
packet re-enter `refreshing` if selected. -/
def markRefreshing (ds : DemuxStream) : DemuxStream :=
  if ds.last_pos ≠ -1 ∨ ds.last_dts ≠ none then
    { ds with refreshing := ds.refreshing || ds.selected }
  else ds

/-- `get_refresh_seek_pts`: returns the refresh-seek target (NOPTS = no
seek) and the updated state. -/
def get_refresh_seek_pts (din : DemuxInternal) : TS × DemuxInternal :=
  let acc := refreshScan din
  let din := { din with streams := din.streams.map clearNeedRefresh }
  if ¬acc.needed ∨ acc.start_ts = none ∨ ¬din.has_seek_fn ∨ ¬din.seekable ∨
      din.partially_seekable then
    (none, din)
  else if acc.normal then
    (acc.start_ts, din)
  else if ¬acc.possible then
    (none, din)
  else
    ((mpAddPts acc.start_ts (-1)),
     { din with streams := din.streams.map markRefreshing })

/-- Accumulator of the need-to-read scan at the top of `read_packet`. -/
structure ReadCheck where
  active : Bool
  read_more : Bool
  bytes : ℕ

/-- The read-ahead duration test of `read_packet`:
`active && last_ts != NOPTS && min_secs > 0 && last_ts >= base_ts &&
last_ts - base_ts < min_secs`. A NOPTS `base_ts` stands for the most
negative double, making `last_ts - base_ts` astronomically large, so the
final comparison is false in that case. -/
def readMoreDur (min_secs : ℚ) (ds : DemuxStream) : Bool :=
  ds.active && decide (ds.last_ts ≠ none) && decide (0 < min_secs) &&
    tsLe ds.base_ts ds.last_ts &&
    (match ds.last_ts, ds.base_ts with
     | some l, some b => decide (l - b < min_secs)
     | _, _ => false)

/-- One stream of the need-to-read scan. -/
def readCheckStep (min_secs : ℚ) (acc : ReadCheck) (ds : DemuxStream) :
    ReadCheck :=
  { active := acc.active || ds.active,
    read_more := acc.read_more || (ds.active && decide (ds.reader_head = none))
      || ds.refreshing || readMoreDur min_secs ds,
    bytes := acc.bytes + ds.fw_bytes }

/-- Queue-overflow handling of `read_packet`: streams with no forward
packet are marked EOF. -/
def markOverflowEof (ds : DemuxStream) : DemuxStream :=
  { ds with eof := ds.eof || decide (ds.reader_head = none) }

/-- How a `read_packet` call concluded, up to the point where it would
perform producer I/O. -/
inductive ReadOutcome where
  /-- The forward-byte cap was hit: no read happens, `false` returned. -/
  | overflow
  /-- Nothing needs reading: `false` returned. -/
  | no_read
  /-- The function would drop the lock and read (optionally after a refresh
  seek to the given target). -/
  | would_read (refresh : TS)

/-- Observable side effects of a `read_packet` call (model of its return
value, logging and signalling). -/
structure ReadEffects where
  ret : Bool
  producer_io : Bool
  logged_overflow : Bool
  signaled_wakeup : Bool

/-- `read_packet`, modeled faithfully up to the point where the lock is
dropped for producer I/O. -/
def read_packet (din : DemuxInternal) : DemuxInternal × ReadOutcome × ReadEffects :=
  let din := { din with eof := false, idle := true }
  let c := din.streams.foldl (readCheckStep din.min_secs)
    { active := false, read_more := false, bytes := 0 }
  if din.max_bytes ≤ c.bytes then
    let logged := !din.warned_queue_overflow
    let din := { din with warned_queue_overflow := true,
                          streams := din.streams.map markOverflowEof }
    (din, ReadOutcome.overflow,
     { ret := false, producer_io := false, logged_overflow := logged,
       signaled_wakeup := true })
  else
    let r := get_refresh_seek_pts din
    let read_more := c.read_more || r.1.isSome
    if read_more then
      ({ r.2 with idle := false, initial_state := false },
       ReadOutcome.would_read r.1,
       { ret := true, producer_io := true, logged_overflow := false,
         signaled_wakeup := false })
    else
      (r.2, ReadOutcome.no_read,
       { ret := false, producer_io := false, logged_overflow := false,
         signaled_wakeup := false })


/-! ## Sample states used by witnesses -/

/-- A freshly cleared, selected, active video stream. -/
def sampleStream : DemuxStream :=
  { type := StreamType.video, selected := true, active := true, eof := false,
    need_refresh := false, refreshing := false, correct_dts := true,
    correct_pos := true, fw_packs := 0, fw_bytes := 0, bw_bytes := 0,
    last_pos := -1, last_dts := none, last_ts := none, back_pts := none,
    queue := [], base_ts := none, last_br_ts := none, last_br_bytes := 0,
    bitrate := -1, reader_head := none, skip_to_keyframe := false,
    attached_picture_added := false, attached_picture := none,
    ignore_eof := false }

/-- A packet with the given timestamps, keyframe flag and size. -/
def samplePkt (pts dts : TS) (key : Bool) (sz : ℕ) : Packet :=
  { pts := pts, dts := dts, pos := -1, keyframe := key, segmented := false,
    pstart := none, pend := none, len := sz, totalSize := sz }

/-- A cache with one stream holding three forward keyframes at 0, 1, 2. -/
def sampleDin : DemuxInternal :=
  { streams :=
      [(demux_add_packet false
          ((demux_add_packet false
              ((demux_add_packet false sampleStream
                  (samplePkt (some 0) (some 0) true 100)).1)
              (samplePkt (some 1) (some 1) true 100)).1)
          (samplePkt (some 2) (some 2) true 100)).1],
    warned_queue_overflow := false, last_eof := false, eof := false,
    idle := true, min_secs := 1, max_bytes := 1000, max_bytes_bw := 1000,
    seekable_cache := true, initial_state := false, tracks_switched := false,
    seeking := false, seek_flags := { forward := false, factor := false, hr := false },
    seek_pts := none, ref_pts := none, ts_offset := 0, filepos := -1,
    seekable := true, partially_seekable := false, has_seek_fn := true }

/-! ## C9: demux_seek with NOPTS -/

/-- Helper: the NOPTS early return of `demux_seek`. -/
theorem demux_seek_nopts_aux (din : DemuxInternal) (flags : SeekFlags) :
    demux_seek din none flags = (0, din) := by
  simp only [demux_seek]
  split <;> rfl

/-- C9: `demux_seek` called with `seek_pts = MP_NOPTS_VALUE` returns 0 and
leaves all cache state unchanged, even when the demuxer is seekable (in the
source this early return precedes taking the lock). -/
theorem demux_seek_nopts (din : DemuxInternal) (flags : SeekFlags)
    (h : din.seekable = true) : demux_seek din none flags = (0, din) :=
  demux_seek_nopts_aux din flags

/-- Witness for C9 at a concrete seekable cache state. -/
theorem demux_seek_nopts_witness :
    sampleDin.seekable = true ∧
      demux_seek sampleDin none sampleDin.seek_flags = (0, sampleDin) :=
  ⟨rfl, demux_seek_nopts sampleDin sampleDin.seek_flags rfl⟩


/-! ## C10: filepos monotonicity across dequeues -/

/-- A sequence of consumer dequeues (by stream index). -/
def dequeueSeq : List ℕ → DemuxInternal → Option DemuxInternal
  | [], din => some din
  | n :: ns, din =>
    match dequeue_packet din n with
    | none => none
    | some r => dequeueSeq ns r.2

/-- Pruning does not touch the consumer-visible filepos. -/
theorem prune_old_packets_filepos {din d : DemuxInternal}
    (h : prune_old_packets din = some d) : d.filepos = din.filepos := by
  simp only [prune_old_packets] at h
  split at h
  · exact Option.noConfusion h
  · injection h with h; subst h; rfl

/-- One `dequeue_packet` call never decreases filepos. -/
theorem dequeue_packet_filepos {din : DemuxInternal} {n : ℕ}
    {r : Option Packet × DemuxInternal}
    (h : dequeue_packet din n = some r) : din.filepos ≤ r.2.filepos := by
  unfold dequeue_packet at h
  split at h
  · cases h; exact le_refl _
  next ds _ =>
    split at h
    · cases h; exact le_refl _
    · cases h; exact le_refl _
    next pkt ds' _ =>
      simp only [] at h
      split at h
      · exact Option.noConfusion h
      next d2 hp =>
        cases h
        have hf := prune_old_packets_filepos hp
        simp only [hf]
        unfold dequeueFileposStep
        split
        next hle => exact hle
        next => exact le_refl _

/-- C10: `dequeue_packet` adopts a packet position as the new filepos only
when it is at or past the current one, so filepos is monotonically
non-decreasing over any sequence of dequeues; `clear_reader_state` resets
it to -1. -/
theorem dequeue_filepos_mono (din : DemuxInternal) (ns : List ℕ)
    (d : DemuxInternal) (h : dequeueSeq ns din = some d) :
    din.filepos ≤ d.filepos ∧ (clear_reader_state din).filepos = -1 := by
  refine ⟨?_, rfl⟩
  induction ns generalizing din with
  | nil => cases h; exact le_refl _
  | cons n ns ih =>
    unfold dequeueSeq at h
    split at h
    · exact Option.noConfusion h
    next r hr => exact le_trans (dequeue_packet_filepos hr) (ih _ h)

/-- Witness for C10: two dequeues on the sample cache. -/
theorem dequeue_filepos_mono_witness :
    sampleDin.filepos ≤ ((dequeueSeq [0, 0] sampleDin).getD sampleDin).filepos ∧
      (clear_reader_state sampleDin).filepos = -1 :=
  dequeue_filepos_mono sampleDin [0, 0] _ (by rfl)


/-- A cache state over the byte cap (for the C5 witness). -/
def sampleDinOverflow : DemuxInternal :=
  { sampleDin with max_bytes := 100 }

/-! ## C5: read_packet on queue overflow -/

/-- Total forward bytes across all streams. -/
def sumFwBytes (streams : List DemuxStream) : ℕ :=
  (streams.map DemuxStream.fw_bytes).sum

/-- The need-to-read scan accumulates exactly the summed forward bytes. -/
theorem readCheck_bytes (m : ℚ) (l : List DemuxStream) (a : ReadCheck) :
    (l.foldl (readCheckStep m) a).bytes = a.bytes + sumFwBytes l := by
  induction l generalizing a with
  | nil => simp [sumFwBytes]
  | cons ds t ih =>
    simp only [List.foldl_cons, ih, readCheckStep, sumFwBytes, List.map_cons,
      List.sum_cons]
    omega

/-- Marking streams EOF on overflow does not change forward byte counts. -/
theorem sumFwBytes_markOverflowEof (l : List DemuxStream) :
    sumFwBytes (l.map markOverflowEof) = sumFwBytes l := by
  induction l with
  | nil => rfl
  | cons ds t ih =>
    simp only [sumFwBytes, List.map_cons, List.sum_cons, markOverflowEof] at *
    omega

/-- Symbolic execution of the overflow branch of `read_packet`. -/
theorem read_packet_overflow_eq (din : DemuxInternal)
    (h : din.max_bytes ≤ sumFwBytes din.streams) :
    read_packet din =
      ({ din with eof := false, idle := true, warned_queue_overflow := true,
                  streams := din.streams.map markOverflowEof },
       ReadOutcome.overflow,
       { ret := false, producer_io := false,
         logged_overflow := !din.warned_queue_overflow,
         signaled_wakeup := true }) := by
  have hb := readCheck_bytes din.min_secs din.streams
    { active := false, read_more := false, bytes := 0 }
  simp only [read_packet]
  split
  · rfl
  next hcond =>
    exact absurd (by simpa [hb] using h) hcond

/-- C5: when the summed forward bytes reach `max_bytes`, `read_packet`
performs no producer read and returns false, marks every stream with an
empty forward buffer EOF, logs the overflow warning only on its first
occurrence, and signals the wakeup condition. -/
theorem read_packet_overflow (din : DemuxInternal)
    (h : din.max_bytes ≤ sumFwBytes din.streams) :
    (read_packet din).2.1 = ReadOutcome.overflow ∧
    (read_packet din).2.2.ret = false ∧
    (read_packet din).2.2.producer_io = false ∧
    (read_packet din).2.2.signaled_wakeup = true ∧
    (read_packet din).2.2.logged_overflow = !din.warned_queue_overflow ∧
    (read_packet din).1.warned_queue_overflow = true ∧
    (∀ i : ℕ, (read_packet din).1.streams[i]? = (din.streams[i]?).map
        (fun ds : DemuxStream =>
          { ds with eof := ds.eof || decide (ds.reader_head = none) })) ∧
    (read_packet (read_packet din).1).2.2.logged_overflow = false := by
  have h1 := read_packet_overflow_eq din h
  have hsum2 : (read_packet din).1.max_bytes ≤ sumFwBytes (read_packet din).1.streams := by
    rw [h1]
    simpa [sumFwBytes_markOverflowEof] using h
  have h2 := read_packet_overflow_eq _ hsum2
  refine ⟨?_, ?_, ?_, ?_, ?_, ?_, ?_, ?_⟩
  · rw [h1]
  · rw [h1]
  · rw [h1]
  · rw [h1]
  · rw [h1]
  · rw [h1]
  · intro i
    rw [h1]
    simp only [List.getElem?_map]
    rfl
  · rw [h2]
    show (!(read_packet din).1.warned_queue_overflow) = false
    rw [h1]
    rfl

/-- Witness for C5: a cache whose forward bytes already exceed the cap. -/
theorem read_packet_overflow_witness :
    sampleDinOverflow.max_bytes ≤ sumFwBytes sampleDinOverflow.streams ∧
      (read_packet sampleDinOverflow).2.1 = ReadOutcome.overflow :=
  ⟨by decide, (read_packet_overflow sampleDinOverflow (by decide)).1⟩


/-! ## C1: packet handling during refresh -/

/-- `tsLt` and `tsLe` are complementary, as raw C comparisons are. -/
theorem tsLt_eq_false_iff (a b : TS) : tsLt a b = false ↔ tsLe b a = true := by
  cases a <;> cases b <;> simp [tsLt, tsLe, not_lt]

/-- `tsLe` is reflexive. -/
theorem tsLe_refl (a : TS) : tsLe a a = true := by
  cases a <;> simp [tsLe]

/-- A refreshing stream with correct DTS tracking (counterexample state). -/
def refreshingStream : DemuxStream :=
  { sampleStream with refreshing := true, last_dts := some 5, last_pos := 7 }

/-- Counterexample to C1 as stated: while `refreshing` with `correct_dts`,
a packet whose DTS (6) is at/after the resume point (`last_dts = 5`) is
still dropped (the queue stays empty); only the `refreshing` flag is
cleared so that the next packet is appended. -/
theorem add_packet_refresh_cex :
    refreshingStream.refreshing = true ∧
    refreshingStream.correct_dts = true ∧
    tsLe refreshingStream.last_dts (samplePkt (some 6) (some 6) true 100).dts = true ∧
    (demux_add_packet false refreshingStream (samplePkt (some 6) (some 6) true 100)).2 = false ∧
    (demux_add_packet false refreshingStream (samplePkt (some 6) (some 6) true 100)).1.queue = [] ∧
    (demux_add_packet false refreshingStream (samplePkt (some 6) (some 6) true 100)).1.refreshing = false := by
  decide

/-- C1 (amended): while a stream's queue is `refreshing`, every incoming
packet is dropped (including the first one at/after the resume point); the
`refreshing` flag is cleared exactly when the packet is at/after the resume
point (`dp.dts >= last_dts` under `correct_dts`, else `dp.pos >= last_pos`
under `correct_pos`, else unconditionally), so appending resumes with the
following packet; a non-refreshing selected stream with no refresh pending
and no seek queued appends the packet. -/
theorem add_packet_refresh (seeking : Bool) (ds : DemuxStream) (dp : Packet) :
    (ds.refreshing = true →
      (demux_add_packet seeking ds dp).2 = false ∧
      ((demux_add_packet seeking ds dp).1.refreshing = false ↔
        (if ds.correct_dts then tsLe ds.last_dts dp.dts
         else if ds.correct_pos then decide (ds.last_pos ≤ dp.pos)
         else true) = true)) ∧
    (ds.refreshing = false → ds.selected = true → ds.need_refresh = false →
      seeking = false → (demux_add_packet seeking ds dp).2 = true) := by
  constructor
  · intro hr
    have he : demux_add_packet seeking ds dp = (addRefreshStep ds dp, false) := by
      simp [demux_add_packet, hr]
    rw [he]
    refine ⟨rfl, ?_⟩
    simp only [addRefreshStep, hr, if_true]
    by_cases hd : ds.correct_dts = true
    · simp [hd, tsLt_eq_false_iff]
    · rw [Bool.not_eq_true] at hd
      by_cases hp : ds.correct_pos = true
      · simp [hd, hp]
      · rw [Bool.not_eq_true] at hp
        simp [hd, hp]
  · intro h1 h2 h3 h4
    simp [demux_add_packet, addRefreshStep, h1, h2, h3, h4]

/-- Witness for C1 (amended): a packet strictly before the resume point is
dropped and keeps the stream refreshing. -/
theorem add_packet_refresh_witness :
    (demux_add_packet false refreshingStream (samplePkt (some 3) (some 3) true 100)).2 = false :=
  ((add_packet_refresh false refreshingStream (samplePkt (some 3) (some 3) true 100)).1 (by decide)).1


/-! ## C8: evolution of last_ts under demux_add_packet -/

theorem addMonoStep_last_ts (ds : DemuxStream) (dp : Packet) :
    (addMonoStep ds dp).last_ts = ds.last_ts := rfl

theorem addReaderHeadStep_last_ts (ds : DemuxStream) (dp : Packet) :
    (addReaderHeadStep ds dp).last_ts = ds.last_ts := by
  unfold addReaderHeadStep; split <;> rfl

theorem addAccountStep_last_ts (ds : DemuxStream) (bytes : ℕ) :
    (addAccountStep ds bytes).last_ts = ds.last_ts := by
  unfold addAccountStep; split <;> rfl

theorem addEnqueueStep_last_ts (ds : DemuxStream) (dp : Packet) :
    (addEnqueueStep ds dp).last_ts = ds.last_ts := rfl

theorem addBackPtsStep_last_ts (ds : DemuxStream) (dp : Packet) :
    (addBackPtsStep ds dp).last_ts = ds.last_ts := by
  unfold addBackPtsStep; split <;> rfl

theorem addEofStep_last_ts (ds : DemuxStream) :
    (addEofStep ds).last_ts = ds.last_ts := by
  unfold addEofStep; split <;> rfl

theorem addBaseTsStep_last_ts (ds : DemuxStream) :
    (addBaseTsStep ds).last_ts = ds.last_ts := by
  unfold addBaseTsStep; split <;> rfl

theorem addRefreshStep_last_ts (ds : DemuxStream) (dp : Packet) :
    (addRefreshStep ds dp).last_ts = ds.last_ts := by
  unfold addRefreshStep; split <;> rfl

/-- The non-video PTS heuristic does not change the effective timestamp. -/
theorem effTs_patchPts (ty : StreamType) (dp : Packet) :
    effTs (patchPts ty dp) = effTs dp := by
  unfold patchPts
  split
  next h =>
    unfold effTs
    rcases h with ⟨-, hp⟩
    cases hd : dp.dts <;> simp [hd, hp]
  next => rfl

/-- `tsLt` implies `tsLe`. -/
theorem tsLe_of_tsLt {a b : TS} (h : tsLt a b = true) : tsLe a b = true := by
  cases a <;> cases b <;> simp_all [tsLt, tsLe]
  exact le_of_lt h

/-- `demux_add_packet` either drops the packet returning the
refresh-updated state, or appends it. -/
theorem demux_add_packet_split (seeking : Bool) (ds : DemuxStream) (dp : Packet) :
    demux_add_packet seeking ds dp = (addRefreshStep ds dp, false) ∨
    demux_add_packet seeking ds dp = (addAppend (addRefreshStep ds dp) dp, true) := by
  unfold demux_add_packet
  simp only []
  split
  · exact Or.inl rfl
  · exact Or.inr rfl

/-- Case analysis of the `last_ts` update. -/
theorem addLastTsStep_cases (ds : DemuxStream) (ts : TS) :
    (addLastTsStep ds ts).last_ts = ds.last_ts ∨
    (∃ t : ℚ, ts = some t ∧ (addLastTsStep ds ts).last_ts = some t ∧
      (tsLt ds.last_ts (some t) = true ∨ tsLt (some (t + 10)) ds.last_ts = true)) := by
  unfold addLastTsStep
  split
  next h =>
    obtain ⟨hne, hor⟩ := h
    cases hts : ts with
    | none => exact absurd hts hne
    | some t =>
      right
      refine ⟨t, rfl, by simp, ?_⟩
      subst hts
      simpa [mpAddPts] using hor
  next => left; rfl

/-- The reset branch of the `last_ts` update fires whenever the new
timestamp is strictly more than 10 seconds below the old one. -/
theorem addLastTsStep_of_reset (ds : DemuxStream) (t : ℚ)
    (h : tsLt (some (t + 10)) ds.last_ts = true) :
    (addLastTsStep ds (some t)).last_ts = some t := by
  unfold addLastTsStep
  rw [if_pos]
  exact ⟨by simp, Or.inr (by simpa [mpAddPts] using h)⟩

/-- The steps of the append path before the `last_ts` update keep it. -/
theorem addAppend_pre_last_ts (ds : DemuxStream) (dp dpP : Packet) :
    (addEofStep (addBackPtsStep (addEnqueueStep (addAccountStep
      (addReaderHeadStep (addMonoStep ds dp) dp) dp.totalSize) dpP)
      dpP)).last_ts = ds.last_ts := by
  rw [addEofStep_last_ts, addBackPtsStep_last_ts, addEnqueueStep_last_ts,
    addAccountStep_last_ts, addReaderHeadStep_last_ts, addMonoStep_last_ts]

/-- Case analysis of `last_ts` over the whole append path. -/
theorem addAppend_last_ts_cases (ds : DemuxStream) (dp : Packet) :
    (addAppend ds dp).last_ts = ds.last_ts ∨
    (∃ t : ℚ, effTs dp = some t ∧ (addAppend ds dp).last_ts = some t ∧
      (tsLt ds.last_ts (some t) = true ∨ tsLt (some (t + 10)) ds.last_ts = true)) := by
  unfold addAppend
  simp only []
  rw [addBaseTsStep_last_ts]
  rcases addLastTsStep_cases (addEofStep (addBackPtsStep (addEnqueueStep
    (addAccountStep (addReaderHeadStep (addMonoStep ds dp) dp) dp.totalSize)
    (patchPts (addAccountStep (addReaderHeadStep (addMonoStep ds dp) dp)
      dp.totalSize).type dp)) (patchPts (addAccountStep (addReaderHeadStep
      (addMonoStep ds dp) dp) dp.totalSize).type dp)))
    (effTs (patchPts (addAccountStep (addReaderHeadStep (addMonoStep ds dp)
      dp) dp.totalSize).type dp)) with h | ⟨t, ht, h1, h2⟩
  · left
    rw [h, addAppend_pre_last_ts]
  · right
    rw [effTs_patchPts] at ht
    rw [addAppend_pre_last_ts] at h2
    exact ⟨t, ht, h1, h2⟩

/-- The reset branch over the whole append path. -/
theorem addAppend_last_ts_reset (ds : DemuxStream) (dp : Packet) (t : ℚ)
    (ht : effTs dp = some t) (h : tsLt (some (t + 10)) ds.last_ts = true) :
    (addAppend ds dp).last_ts = some t := by
  unfold addAppend
  simp only []
  rw [addBaseTsStep_last_ts]
  rw [effTs_patchPts _ dp, ht]
  apply addLastTsStep_of_reset
  rw [addAppend_pre_last_ts]
  exact h

/-- C8 (amended): across `demux_add_packet` calls, `last_ts` never
decreases, except when the appended packet's effective timestamp (DTS, else
PTS, clamped to the segmented end) lies strictly more than 10 seconds below
the current `last_ts`, in which case `last_ts` is replaced by that
timestamp; and whenever an appended packet's effective timestamp does lie
strictly more than 10 seconds below, the replacement happens. -/
theorem add_packet_last_ts (seeking : Bool) (ds : DemuxStream) (dp : Packet) :
    (tsLe ds.last_ts (demux_add_packet seeking ds dp).1.last_ts = true ∨
      (∃ t : ℚ, effTs dp = some t ∧ tsLt (some (t + 10)) ds.last_ts = true ∧
        (demux_add_packet seeking ds dp).1.last_ts = some t)) ∧
    (∀ t : ℚ, (demux_add_packet seeking ds dp).2 = true → effTs dp = some t →
      tsLt (some (t + 10)) ds.last_ts = true →
      (demux_add_packet seeking ds dp).1.last_ts = some t) := by
  rcases demux_add_packet_split seeking ds dp with he | he <;> rw [he]
  · refine ⟨Or.inl ?_, ?_⟩
    · rw [addRefreshStep_last_ts]
      exact tsLe_refl _
    · intro t hc
      exact absurd hc (by simp)
  · constructor
    · rcases addAppend_last_ts_cases (addRefreshStep ds dp) dp with h | ⟨t, ht, h1, h2⟩
      · left
        rw [h, addRefreshStep_last_ts]
        exact tsLe_refl _
      · rw [addRefreshStep_last_ts] at h2
        rcases h2 with h2 | h2
        · left
          rw [h1]
          exact tsLe_of_tsLt h2
        · right
          exact ⟨t, ht, h2, h1⟩
    · intro t _ ht hlt
      show (addAppend (addRefreshStep ds dp) dp).last_ts = some t
      apply addAppend_last_ts_reset _ _ _ ht
      rw [addRefreshStep_last_ts]
      exact hlt

/-- A stream whose `last_ts` is 10 (counterexample state for C8). -/
def lastTsStream : DemuxStream := { sampleStream with last_ts := some 10 }

/-- Counterexample to C8 as stated: the appended packet's effective
timestamp (0) lies exactly 10 seconds below `last_ts` (10), yet `last_ts`
is not replaced (the reset fires only strictly beyond 10 seconds,
`ts + 10 < last_ts` in demux.c:680). -/
theorem add_packet_last_ts_cex :
    (demux_add_packet false lastTsStream (samplePkt (some 0) (some 0) false 50)).2 = true ∧
    effTs (samplePkt (some 0) (some 0) false 50) = some 0 ∧
    lastTsStream.last_ts = some 10 ∧
    (demux_add_packet false lastTsStream (samplePkt (some 0) (some 0) false 50)).1.last_ts = some 10 := by
  decide

/-- Witness for C8 (amended) at a concrete append that resets `last_ts`. -/
theorem add_packet_last_ts_witness :
    (demux_add_packet false lastTsStream (samplePkt none (some (-1)) false 50)).1.last_ts = some (-1) :=
  (add_packet_last_ts false lastTsStream (samplePkt none (some (-1)) false 50)).2
    (-1) (by decide) (by decide) (by decide)


/-! ## C2: queue byte/packet accounting invariant -/

/-- `reader_head`, when set, points into the queue. -/
def rhOk (ds : DemuxStream) : Bool :=
  ds.reader_head.all (fun r => decide (r < ds.queue.length))

/-- The accounting invariant of a stream queue: the cached counters agree
with the packet list split at `reader_head`. -/
def queueInv (ds : DemuxStream) : Prop :=
  rhOk ds = true ∧
  ds.fw_bytes = sumSize (fwList ds) ∧
  ds.bw_bytes = sumSize (bwList ds) ∧
  ds.fw_packs = (fwList ds).length

theorem sumSize_nil : sumSize [] = 0 := rfl

theorem sumSize_cons (p : Packet) (l : List Packet) :
    sumSize (p :: l) = p.totalSize + sumSize l := by
  simp [sumSize]

theorem sumSize_append (a b : List Packet) :
    sumSize (a ++ b) = sumSize a + sumSize b := by
  simp [sumSize]

theorem sumSize_take_add_drop (l : List Packet) (n : ℕ) :
    sumSize (l.take n) + sumSize (l.drop n) = sumSize l := by
  rw [← sumSize_append, List.take_append_drop]

/-- The projections that the accounting invariant depends on. -/
def accView (ds : DemuxStream) :
    List Packet × Option ℕ × ℕ × ℕ × ℕ :=
  (ds.queue, ds.reader_head, ds.fw_packs, ds.fw_bytes, ds.bw_bytes)

theorem queueInv_congr {a b : DemuxStream} (h : accView a = accView b) :
    queueInv a ↔ queueInv b := by
  obtain ⟨h1, h2, h3, h4, h5⟩ :
      a.queue = b.queue ∧ a.reader_head = b.reader_head ∧
      a.fw_packs = b.fw_packs ∧ a.fw_bytes = b.fw_bytes ∧
      a.bw_bytes = b.bw_bytes := by
    have e1 := congrArg Prod.fst h
    have e2 := congrArg (fun x => x.2.1) h
    have e3 := congrArg (fun x => x.2.2.1) h
    have e4 := congrArg (fun x => x.2.2.2.1) h
    have e5 := congrArg (fun x => x.2.2.2.2) h
    exact ⟨e1, e2, e3, e4, e5⟩
  unfold queueInv rhOk fwList bwList
  rw [h1, h2, h3, h4, h5]

theorem accView_addRefreshStep (ds : DemuxStream) (dp : Packet) :
    accView (addRefreshStep ds dp) = accView ds := by
  unfold addRefreshStep; split <;> rfl

theorem accView_addMonoStep (ds : DemuxStream) (dp : Packet) :
    accView (addMonoStep ds dp) = accView ds := rfl

theorem accView_addBackPtsStep (ds : DemuxStream) (dp : Packet) :
    accView (addBackPtsStep ds dp) = accView ds := by
  unfold addBackPtsStep; split <;> rfl

theorem accView_addEofStep (ds : DemuxStream) :
    accView (addEofStep ds) = accView ds := by
  unfold addEofStep; split <;> rfl

theorem accView_addLastTsStep (ds : DemuxStream) (ts : TS) :
    accView (addLastTsStep ds ts) = accView ds := by
  unfold addLastTsStep; split <;> rfl

theorem accView_addBaseTsStep (ds : DemuxStream) :
    accView (addBaseTsStep ds) = accView ds := by
  unfold addBaseTsStep; split <;> rfl

theorem patchPts_totalSize (ty : StreamType) (dp : Packet) :
    (patchPts ty dp).totalSize = dp.totalSize := by
  unfold patchPts; split <;> rfl


/-- From the invariant, when `reader_head` is set it is a valid index. -/
theorem rhOk_lt {ds : DemuxStream} {r : ℕ} (h : rhOk ds = true)
    (hr : ds.reader_head = some r) : r < ds.queue.length := by
  unfold rhOk at h
  rw [hr] at h
  simpa using h

theorem fwList_none {ds : DemuxStream} (h : ds.reader_head = none) :
    fwList ds = [] := by
  unfold fwList; rw [h]

theorem fwList_some {ds : DemuxStream} {r : ℕ} (h : ds.reader_head = some r) :
    fwList ds = ds.queue.drop r := by
  unfold fwList; rw [h]

theorem bwList_none {ds : DemuxStream} (h : ds.reader_head = none) :
    bwList ds = ds.queue := by
  unfold bwList; rw [h]

theorem bwList_some {ds : DemuxStream} {r : ℕ} (h : ds.reader_head = some r) :
    bwList ds = ds.queue.take r := by
  unfold bwList; rw [h]

/-- The invariant is preserved by the reader-head decision, the byte
accounting and the enqueue of `demux_add_packet` (the appended packet
`dpP` is the PTS-patched copy, whose estimated size is unchanged). -/
theorem queueInv_enqueue_core (ds : DemuxStream) (dp dpP : Packet)
    (hsz : dpP.totalSize = dp.totalSize) (h : queueInv ds) :
    queueInv (addEnqueueStep (addAccountStep (addReaderHeadStep ds dp)
      dp.totalSize) dpP) := by
  obtain ⟨hrh, hfw, hbw, hfp⟩ := h
  unfold addReaderHeadStep
  split
  next hset =>
    obtain ⟨hnone, -⟩ := hset
    rw [fwList_none hnone] at hfw hfp
    rw [bwList_none hnone] at hbw
    simp only [addAccountStep, addEnqueueStep, Option.isSome_some, if_true]
    unfold queueInv rhOk fwList bwList
    simp only [Option.all_some, List.drop_left, List.length_append,
      List.take_append_of_le_length (le_refl ds.queue.length), List.take_length,
      sumSize_cons, sumSize_nil, List.length_cons, List.length_nil,
      sumSize_nil] at *
    refine ⟨by simp, by omega, hbw, by omega⟩
  next hset =>
    cases hcase : ds.reader_head with
    | none =>
      rw [fwList_none hcase] at hfw hfp
      rw [bwList_none hcase] at hbw
      simp only [addAccountStep, hcase, Option.isSome_none, Bool.false_eq_true,
        if_false, addEnqueueStep]
      unfold queueInv rhOk fwList bwList
      simp only [hcase, Option.all_none, sumSize_append, sumSize_cons,
        sumSize_nil, sumSize_nil, List.length_nil] at *
      exact ⟨trivial, hfw, by omega, hfp⟩
    | some r =>
      have hlt : r < ds.queue.length := rhOk_lt hrh hcase
      rw [fwList_some hcase] at hfw hfp
      rw [bwList_some hcase] at hbw
      simp only [addAccountStep, hcase, Option.isSome_some, if_true, addEnqueueStep]
      unfold queueInv rhOk fwList bwList
      simp only [hcase, Option.all_some, List.length_append, List.length_cons,
        List.drop_append_of_le_length (le_of_lt hlt),
        List.take_append_of_le_length (le_of_lt hlt),
        sumSize_append, sumSize_cons, sumSize_nil, List.length_nil] at *
      refine ⟨by simp; omega, by omega, hbw, by simp [hfp]⟩


/-- The invariant is preserved by the whole append path. -/
theorem queueInv_addAppend (ds : DemuxStream) (dp : Packet)
    (h : queueInv ds) : queueInv (addAppend ds dp) := by
  unfold addAppend
  simp only []
  have h2 : queueInv (addMonoStep ds dp) :=
    (queueInv_congr (accView_addMonoStep ds dp)).mpr h
  have h3 := queueInv_enqueue_core (addMonoStep ds dp) dp
    (patchPts (addAccountStep (addReaderHeadStep (addMonoStep ds dp) dp)
      dp.totalSize).type dp) (patchPts_totalSize _ dp) h2
  refine (queueInv_congr ?_).mpr h3
  rw [accView_addBaseTsStep, accView_addLastTsStep, accView_addEofStep,
    accView_addBackPtsStep]

/-- The invariant is preserved by `demux_add_packet`. -/
theorem queueInv_add_packet (seeking : Bool) (ds : DemuxStream) (dp : Packet)
    (h : queueInv ds) : queueInv (demux_add_packet seeking ds dp).1 := by
  rcases demux_add_packet_split seeking ds dp with he | he <;> rw [he]
  · exact (queueInv_congr (accView_addRefreshStep ds dp)).mpr h
  · exact queueInv_addAppend _ dp
      ((queueInv_congr (accView_addRefreshStep ds dp)).mpr h)

/-- The stream state carried in a `DequeueResult`. -/
def dqStream : DequeueResult → DemuxStream
  | DequeueResult.attached _ ds => ds
  | DequeueResult.empty ds => ds
  | DequeueResult.normal _ ds => ds

theorem accView_dequeueBitrateStep (ds : DemuxStream) (pkt : Packet) (ts : TS) :
    accView (dequeueBitrateStep ds pkt ts) = accView ds := by
  unfold dequeueBitrateStep
  split
  · split
    · rfl
    · split
      · rfl
      · split
        · rfl
        · split <;> rfl
  · rfl

/-- The invariant is preserved by the pointer advance of `dequeue_packet`. -/
theorem queueInv_dequeueAdvance (ds : DemuxStream) (i : ℕ) (pkt : Packet)
    (hq : ds.queue[i]? = some pkt) (hr : ds.reader_head = some i)
    (h : queueInv ds) : queueInv (dequeueAdvanceStep ds i pkt.totalSize) := by
  obtain ⟨hrh, hfw, hbw, hfp⟩ := h
  have hlt : i < ds.queue.length := rhOk_lt hrh hr
  have hget : ds.queue[i] = pkt := by
    have := List.getElem?_eq_getElem hlt
    rw [hq] at this
    exact (Option.some.injEq _ _).mp this.symm
  rw [fwList_some hr] at hfw hfp
  rw [bwList_some hr] at hbw
  have hdrop : ds.queue.drop i = pkt :: ds.queue.drop (i+1) := by
    rw [List.drop_eq_getElem_cons hlt, hget]
  have htake : ds.queue.take (i+1) = ds.queue.take i ++ [pkt] := by
    rw [List.take_succ, hq]
    rfl
  unfold dequeueAdvanceStep queueInv rhOk fwList bwList
  simp only []
  rw [hdrop] at hfw hfp
  rw [sumSize_cons] at hfw
  split
  next h2 =>
    simp only [Option.all_some, htake, sumSize_append, sumSize_cons,
      sumSize_nil, List.length_cons] at *
    refine ⟨by simp [h2], by omega, by omega, by omega⟩
  next h2 =>
    have hnil : ds.queue.drop (i+1) = [] := by
      apply List.drop_eq_nil_of_le
      omega
    rw [hnil] at hfw hfp
    have hall : ds.queue = ds.queue.take i ++ [pkt] := by
      conv_lhs => rw [← List.take_append_drop (i+1) ds.queue]
      rw [htake, hnil, List.append_nil]
    simp only [Option.all_none, List.length_cons, List.length_nil,
      sumSize_nil] at *
    refine ⟨trivial, by omega, ?_, by omega⟩
    conv_rhs => rw [hall]
    rw [sumSize_append, sumSize_cons, sumSize_nil]
    omega

/-- The invariant is preserved by the per-stream part of `dequeue_packet`. -/
theorem queueInv_dequeue_core (ds : DemuxStream) (h : queueInv ds) :
    queueInv (dqStream (dequeue_packet_core ds)) := by
  unfold dequeue_packet_core
  split
  · -- attached picture
    split
    · exact (queueInv_congr (by rfl)).mpr h
    · exact (queueInv_congr (by rfl)).mpr h
  · split
    · exact h
    next i hr =>
      split
      · exact h
      next pkt hq =>
        simp only [dqStream]
        have h1 := queueInv_dequeueAdvance ds i pkt hq hr h
        apply Iff.mpr (queueInv_congr (accView_dequeueBitrateStep _ _ _))
        split
        · exact (queueInv_congr rfl).mpr h1
        · exact h1


/-- What the prune drop loop does: it removes a prefix of `k` packets,
shifting `reader_head` down by `k` and accumulating the bytes of the
removed prefix, never crossing `reader_head`, and removing at least one
packet when neither stop condition blocks it immediately. -/
theorem dropLoop_spec (q : List Packet) (rh nst : Option ℕ) (acc : ℕ) :
    ∃ k, k ≤ q.length ∧
      dropLoop q rh nst acc =
        (q.drop k, rh.map (· - k), acc + sumSize (q.take k)) ∧
      (∀ r, rh = some r → k ≤ r) ∧
      (q ≠ [] → rh ≠ some 0 → nst ≠ some 0 → 1 ≤ k) := by
  induction q generalizing rh nst acc with
  | nil =>
    refine ⟨0, by simp, ?_, by simp, by simp⟩
    simp only [dropLoop, List.drop_nil, List.take_nil, sumSize_nil, Nat.add_zero]
    cases rh <;> simp
  | cons dp rest ih =>
    by_cases hstop : rh = some 0 ∨ nst = some 0
    · refine ⟨0, by simp, ?_, by simp, ?_⟩
      · simp only [dropLoop, if_pos hstop, List.drop_zero, List.take_zero,
          sumSize_nil, Nat.add_zero]
        cases rh <;> simp
      · intro _ h1 h2
        rcases hstop with hp | hp
        exacts [absurd hp h1, absurd hp h2]
    · obtain ⟨k, hk, heq, hle, -⟩ :=
        ih (rh.map (· - 1)) (nst.map (· - 1)) (acc + dp.totalSize)
      refine ⟨k + 1, by simp; omega, ?_, ?_, by omega⟩
      · show dropLoop (dp :: rest) rh nst acc = _
        rw [dropLoop, if_neg hstop, heq]
        refine congrArg _ ?_
        refine congrArg₂ _ ?_ ?_
        · cases rh with
          | none => rfl
          | some r =>
            show some (r - 1 - k) = some (r - (k + 1))
            congr 1
            omega
        · show acc + dp.totalSize + sumSize (List.take k rest) =
            acc + sumSize (dp :: List.take k rest)
          rw [sumSize_cons]
          omega
      · intro r hr
        subst hr
        have hr0 : r ≠ 0 := by
          intro h0
          exact hstop (Or.inl (by rw [h0]))
        have := hle (r - 1) (by simp)
        omega

/-- Every `next_seek_target` the scan returns lies strictly after the
queue head. -/
theorem findNextSeekTarget_ne_zero :
    ∀ (l : List Packet) (i j : ℕ) (b : TS),
      findNextSeekTarget l i = (some j, b) → j ≠ 0 := by
  intro l
  induction l with
  | nil => intro i j b h; simp [findNextSeekTarget] at h
  | cons dp rest ih =>
    intro i j b h
    rw [findNextSeekTarget] at h
    by_cases hkf : dp.keyframe = true ∧ i ≠ 0
    · simp only [if_pos hkf] at h
      by_cases hbp : recompute_keyframe_target_pts (dp :: rest) ≠ none
      · rw [if_pos hbp] at h
        have : some i = some j := congrArg Prod.fst h
        cases this
        exact hkf.2
      · rw [if_neg hbp] at h
        rcases hr : findNextSeekTarget rest (i + 1) with ⟨o, ts⟩
        rw [hr] at h
        cases o with
        | none =>
          have : some i = some j := congrArg Prod.fst h
          cases this
          exact hkf.2
        | some j2 =>
          have : some j2 = some j := congrArg Prod.fst h
          cases this
          exact ih (i+1) _ ts hr
    · rw [if_neg hkf] at h
      exact ih (i+1) j b h


theorem sumSize_take_mono (q : List Packet) {j k : ℕ} (h : k ≤ j) :
    sumSize (q.take k) ≤ sumSize (q.take j) := by
  conv_rhs => rw [show j = k + (j - k) by omega, List.take_add]
  rw [sumSize_append]
  omega

theorem sumSize_take_le (q : List Packet) (k : ℕ) :
    sumSize (q.take k) ≤ sumSize q := by
  conv_rhs => rw [← List.take_append_drop k q]
  rw [sumSize_append]
  omega

/-- Effect of one prune iteration on a stream: the invariant is preserved,
the dropped bytes come out of `bw_bytes`, the forward buffer is untouched,
and a prunable stream loses at least one packet. -/
theorem pruneStream_spec (ds : DemuxStream) (h : queueInv ds) :
    queueInv (pruneStream ds).1 ∧
    (pruneStream ds).2 ≤ ds.bw_bytes ∧
    (pruneStream ds).1.bw_bytes = ds.bw_bytes - (pruneStream ds).2 ∧
    fwList (pruneStream ds).1 = fwList ds ∧
    (pruneStream ds).1.queue <:+ ds.queue ∧
    (pruneStream ds).1.queue.length ≤ ds.queue.length ∧
    (pruneCandidate ds = true →
      (pruneStream ds).1.queue.length < ds.queue.length) := by
  obtain ⟨hrh, hfw, hbw, hfp⟩ := h
  rcases hnst : findNextSeekTarget ds.queue 0 with ⟨nst, bp⟩
  obtain ⟨k, hk, heq, hle, hprog⟩ := dropLoop_spec ds.queue ds.reader_head nst 0
  have hres : pruneStream ds =
      ({ ds with
          queue := ds.queue.drop k,
          reader_head := ds.reader_head.map (· - k),
          back_pts := bp,
          bw_bytes := ds.bw_bytes - (0 + sumSize (ds.queue.take k)) },
       0 + sumSize (ds.queue.take k)) := by
    unfold pruneStream
    rw [hnst]
    simp only []
    rw [heq]
  have hq : (pruneStream ds).1.queue = ds.queue.drop k := by rw [hres]
  have hrh1 : (pruneStream ds).1.reader_head = ds.reader_head.map (· - k) := by
    rw [hres]
  have hbw1 : (pruneStream ds).1.bw_bytes =
      ds.bw_bytes - sumSize (ds.queue.take k) := by
    rw [hres]
    simp
  have hfw1 : (pruneStream ds).1.fw_bytes = ds.fw_bytes := by rw [hres]
  have hfp1 : (pruneStream ds).1.fw_packs = ds.fw_packs := by rw [hres]
  have hd : (pruneStream ds).2 = sumSize (ds.queue.take k) := by
    rw [hres]
    simp
  have hqlen : (pruneStream ds).1.queue.length = ds.queue.length - k := by
    rw [hq, List.length_drop]
  have hprogress : pruneCandidate ds = true →
      (pruneStream ds).1.queue.length < ds.queue.length := by
    intro hc
    unfold pruneCandidate at hc
    simp only [Bool.and_eq_true, decide_eq_true_eq] at hc
    obtain ⟨hc1, hc2⟩ := hc
    have hne : ds.queue ≠ [] := by
      intro h0
      rw [h0] at hc1
      simp at hc1
    have hk1 : 1 ≤ k := by
      refine hprog hne hc2 ?_
      intro h0
      exact findNextSeekTarget_ne_zero ds.queue 0 0 bp (by rw [hnst, h0]) rfl
    have hlen0 : ds.queue.length ≠ 0 := fun h0 =>
      hne (List.eq_nil_of_length_eq_zero h0)
    rw [hqlen]
    omega
  cases hr : ds.reader_head with
  | none =>
    rw [bwList_none hr] at hbw
    rw [fwList_none hr] at hfw hfp
    have hrh2 : (pruneStream ds).1.reader_head = none := by
      rw [hrh1, hr]
      rfl
    have hfwl : fwList (pruneStream ds).1 = [] := fwList_none hrh2
    have hbwl : bwList (pruneStream ds).1 = ds.queue.drop k := by
      rw [bwList_none hrh2, hq]
    have htd := sumSize_take_add_drop ds.queue k
    have htle := sumSize_take_le ds.queue k
    refine ⟨⟨?_, ?_, ?_, ?_⟩, ?_, ?_, ?_, ?_, ?_, hprogress⟩
    · unfold rhOk
      rw [hrh2]
      rfl
    · rw [hfwl, hfw1, hfw]
    · rw [hbwl, hbw1]
      omega
    · rw [hfwl, hfp1, hfp]
    · rw [hd, hbw]
      exact htle
    · rw [hd, hbw1]
    · rw [hfwl, fwList_none hr]
    · rw [hq]
      exact List.drop_suffix k ds.queue
    · rw [hqlen]
      omega
  | some r =>
    have hlt : r < ds.queue.length := rhOk_lt hrh hr
    have hkr : k ≤ r := hle r hr
    rw [bwList_some hr] at hbw
    rw [fwList_some hr] at hfw hfp
    have hrh2 : (pruneStream ds).1.reader_head = some (r - k) := by
      rw [hrh1, hr]
      rfl
    have hfwl : fwList (pruneStream ds).1 = ds.queue.drop r := by
      rw [fwList_some hrh2, hq, List.drop_drop]
      congr 1
      omega
    have hbwl : bwList (pruneStream ds).1 = (ds.queue.drop k).take (r - k) := by
      rw [bwList_some hrh2, hq]
    have htk : sumSize (ds.queue.take r) =
        sumSize (ds.queue.take k) + sumSize ((ds.queue.drop k).take (r - k)) := by
      conv_lhs => rw [show r = k + (r - k) by omega, List.take_add]
      rw [sumSize_append]
    refine ⟨⟨?_, ?_, ?_, ?_⟩, ?_, ?_, ?_, ?_, ?_, hprogress⟩
    · unfold rhOk
      rw [hrh2, hq]
      simp only [Option.all_some, List.length_drop, decide_eq_true_eq]
      omega
    · rw [hfwl, hfw1, hfw]
    · rw [hbwl, hbw1, hbw]
      omega
    · rw [hfwl, hfp1, hfp]
    · rw [hd, hbw]
      rw [htk]
      omega
    · rw [hd, hbw1]
    · rw [hfwl, fwList_some hr]
    · rw [hq]
      exact List.drop_suffix k ds.queue
    · rw [hqlen]
      omega


theorem mem_of_getElem_opt {α : Type} {l : List α} {n : ℕ} {a : α}
    (h : l[n]? = some a) : a ∈ l := by
  have hn : n < l.length := by
    by_contra hc
    rw [List.getElem?_eq_none (by omega)] at h
    exact Option.noConfusion h
  rw [List.getElem?_eq_getElem hn] at h
  cases h
  exact List.getElem_mem hn

theorem setIdx_length {α : Type} (x : α) :
    ∀ (n : ℕ) (l : List α), (setIdx x n l).length = l.length := by
  intro n l
  induction l generalizing n with
  | nil => simp [setIdx]
  | cons y ys ih =>
    cases n with
    | zero => rfl
    | succ m => simp [setIdx, ih]

theorem getElem_opt_setIdx_self {α : Type} (x : α) :
    ∀ (n : ℕ) (l : List α), n < l.length → (setIdx x n l)[n]? = some x := by
  intro n l
  induction l generalizing n with
  | nil => intro h; simp at h
  | cons y ys ih =>
    intro h
    cases n with
    | zero => simp [setIdx]
    | succ m =>
      show (setIdx x (m+1) (y :: ys))[m+1]? = some x
      rw [setIdx]
      rw [List.getElem?_cons_succ]
      exact ih m (by simpa using h)

theorem getElem_opt_setIdx_ne {α : Type} (x : α) :
    ∀ (n m : ℕ) (l : List α), n ≠ m → (setIdx x n l)[m]? = l[m]? := by
  intro n m l
  induction l generalizing n m with
  | nil => intro _; simp [setIdx]
  | cons y ys ih =>
    intro hne
    cases n with
    | zero =>
      cases m with
      | zero => exact absurd rfl hne
      | succ m2 => simp [setIdx]
    | succ n2 =>
      cases m with
      | zero => simp [setIdx]
      | succ m2 =>
        show (y :: setIdx x n2 ys)[m2+1]? = (y :: ys)[m2+1]?
        rw [List.getElem?_cons_succ, List.getElem?_cons_succ]
        exact ih n2 m2 (by omega)

theorem mem_setIdx {α : Type} {x y : α} :
    ∀ (n : ℕ) (l : List α), y ∈ setIdx x n l → y = x ∨ y ∈ l := by
  intro n l
  induction l generalizing n with
  | nil => intro h; simp [setIdx] at h
  | cons z zs ih =>
    cases n with
    | zero =>
      intro h
      rcases List.mem_cons.mp h with h | h
      · exact Or.inl h
      · exact Or.inr (List.mem_cons_of_mem z h)
    | succ m =>
      intro h
      rcases List.mem_cons.mp h with h | h
      · exact Or.inr (h ▸ List.mem_cons_self z zs)
      · rcases ih m h with h | h
        · exact Or.inl h
        · exact Or.inr (List.mem_cons_of_mem z h)

theorem map_sum_setIdx {α : Type} (f : α → ℕ) (x : α) :
    ∀ (n : ℕ) (l : List α) (a : α), l[n]? = some a →
      ((setIdx x n l).map f).sum + f a = (l.map f).sum + f x := by
  intro n l
  induction l generalizing n with
  | nil => intro a h; simp at h
  | cons y ys ih =>
    intro a h
    cases n with
    | zero =>
      rw [List.getElem?_cons_zero] at h
      cases h
      show (f x + (ys.map f).sum) + f y = (f y + (ys.map f).sum) + f x
      omega
    | succ m =>
      rw [List.getElem?_cons_succ] at h
      have := ih m a h
      show (f y + ((setIdx x m ys).map f).sum) + f a =
        (f y + (ys.map f).sum) + f x
      omega

theorem getElem_opt_le_map_sum {α : Type} (f : α → ℕ) :
    ∀ (n : ℕ) (l : List α) (a : α), l[n]? = some a → f a ≤ (l.map f).sum := by
  intro n l
  induction l generalizing n with
  | nil => intro a h; simp at h
  | cons y ys ih =>
    intro a h
    cases n with
    | zero =>
      rw [List.getElem?_cons_zero] at h
      cases h
      show f y ≤ f y + (ys.map f).sum
      omega
    | succ m =>
      rw [List.getElem?_cons_succ] at h
      have := ih m a h
      show f a ≤ f y + (ys.map f).sum
      omega

theorem exists_pos_of_map_sum_pos {α : Type} (f : α → ℕ) :
    ∀ (l : List α), 0 < (l.map f).sum → ∃ a ∈ l, 0 < f a := by
  intro l
  induction l with
  | nil => intro h; simp at h
  | cons y ys ih =>
    intro h
    rw [List.map_cons, List.sum_cons] at h
    by_cases hy : 0 < f y
    · exact ⟨y, List.mem_cons_self y ys, hy⟩
    · obtain ⟨a, ha, hpos⟩ := ih (by omega)
      exact ⟨a, List.mem_cons_of_mem y ha, hpos⟩


/-- Any index the earliest-stream scan returns satisfies a property that
holds of the initial best index and of every candidate position. -/
theorem selectEarliest_go_spec (P : ℕ → Prop) :
    ∀ (l : List DemuxStream) (n : ℕ) (bestTs : TS) (best : Option ℕ),
      (∀ m, best = some m → P m) →
      (∀ (i : ℕ) (ds : DemuxStream), l[i]? = some ds →
        pruneCandidate ds = true → P (n + i)) →
      ∀ m, selectEarliest.go l n bestTs best = some m → P m := by
  intro l
  induction l with
  | nil =>
    intro n bestTs best hbest _ m hm
    simp only [selectEarliest.go] at hm
    exact hbest m hm
  | cons ds rest ih =>
    intro n bestTs best hbest hl m hm
    have hshift : ∀ (i : ℕ) (d : DemuxStream), rest[i]? = some d →
        pruneCandidate d = true → P (n + 1 + i) := by
      intro i d hg hc
      have h2 := hl (i + 1) d (by rw [List.getElem?_cons_succ]; exact hg) hc
      have harith : n + (i + 1) = n + 1 + i := by omega
      rwa [harith] at h2
    rcases hq : ds.queue with - | ⟨dp, tl⟩ <;>
      simp only [selectEarliest.go, hq] at hm
    · exact ih (n+1) bestTs best hbest hshift m hm
    · by_cases hc : pruneCandidate ds = true
      · rw [if_pos hc] at hm
        split at hm
        · refine ih (n+1) _ _ ?_ hshift m hm
          intro m2 hm2
          cases hm2
          have h0 := hl 0 ds (by rw [List.getElem?_cons_zero]) hc
          simpa using h0
        · exact ih (n+1) bestTs best hbest hshift m hm
      · rw [if_neg hc] at hm
        exact ih (n+1) bestTs best hbest hshift m hm

/-- The earliest-stream scan finds something whenever a candidate exists. -/
theorem selectEarliest_go_isSome :
    ∀ (l : List DemuxStream) (n : ℕ) (bestTs : TS) (best : Option ℕ),
      (best = none → bestTs = none) →
      (best.isSome = true ∨ ∃ ds ∈ l, pruneCandidate ds = true) →
      (selectEarliest.go l n bestTs best).isSome = true := by
  intro l
  induction l with
  | nil =>
    intro n bestTs best _ h
    simp only [selectEarliest.go]
    rcases h with h | ⟨ds, hmem, -⟩
    · exact h
    · simp at hmem
  | cons ds rest ih =>
    intro n bestTs best hbt h
    rcases hq : ds.queue with - | ⟨dp, tl⟩ <;>
      simp only [selectEarliest.go, hq]
    · apply ih (n+1) bestTs best hbt
      rcases h with h | ⟨d, hmem, hc⟩
      · exact Or.inl h
      · rcases List.mem_cons.mp hmem with heq | hmem2
        · subst heq
          unfold pruneCandidate at hc
          rw [hq] at hc
          simp at hc
        · exact Or.inr ⟨d, hmem2, hc⟩
    · by_cases hc : pruneCandidate ds = true
      · rw [if_pos hc]
        split
        · apply ih (n+1) _ (some n)
          · intro hn
            exact Option.noConfusion hn
          · exact Or.inl rfl
        next hcond =>
          apply ih (n+1) bestTs best hbt
          left
          have hbne : best ≠ none := by
            intro h0
            exact hcond (Or.inl (hbt h0))
          cases hb : best with
          | none => exact absurd hb hbne
          | some b => rfl
      · rw [if_neg hc]
        apply ih (n+1) bestTs best hbt
        rcases h with h | ⟨d, hmem, hcd⟩
        · exact Or.inl h
        · rcases List.mem_cons.mp hmem with heq | hmem2
          · subst heq
            exact absurd hcd hc
          · exact Or.inr ⟨d, hmem2, hcd⟩

/-- When some stream is prunable, `selectEarliest` returns the index of a
prunable stream. -/
theorem selectEarliest_spec (streams : List DemuxStream)
    (h : ∃ ds ∈ streams, pruneCandidate ds = true) :
    ∃ n ds, selectEarliest streams = some n ∧ streams[n]? = some ds ∧
      pruneCandidate ds = true := by
  have hsome := selectEarliest_go_isSome streams 0 none none (fun _ => rfl)
    (Or.inr h)
  cases hsel : selectEarliest.go streams 0 none none with
  | none => rw [hsel] at hsome; simp at hsome
  | some n =>
    have hP := selectEarliest_go_spec
      (fun m => ∃ ds, streams[m]? = some ds ∧ pruneCandidate ds = true)
      streams 0 none none (by intro m hm; exact Option.noConfusion hm)
      (by
        intro i ds hg hc
        show ∃ d, streams[0 + i]? = some d ∧ pruneCandidate d = true
        rw [Nat.zero_add]
        exact ⟨ds, hg, hc⟩)
      n hsel
    obtain ⟨ds, hg, hc⟩ := hP
    exact ⟨n, ds, hsel, hg, hc⟩


/-- All queues satisfy the accounting invariant. -/
def streamsInv (l : List DemuxStream) : Prop := ∀ ds ∈ l, queueInv ds

/-- A queue holding back-buffer bytes is prunable. -/
theorem pruneCandidate_of_bw_pos {ds : DemuxStream} (h : queueInv ds)
    (hpos : 0 < ds.bw_bytes) : pruneCandidate ds = true := by
  obtain ⟨hrh, -, hbw, -⟩ := h
  have hbne : bwList ds ≠ [] := by
    intro h0
    rw [h0] at hbw
    rw [hbw] at hpos
    simp [sumSize_nil] at hpos
  unfold pruneCandidate
  cases hr : ds.reader_head with
  | none =>
    rw [bwList_none hr] at hbne
    simp [hr, List.isEmpty_iff, hbne]
  | some r =>
    rw [bwList_some hr] at hbne
    have hqne : ds.queue ≠ [] := by
      intro h0
      rw [h0] at hbne
      simp at hbne
    have hr0 : r ≠ 0 := by
      intro h0
      rw [h0] at hbne
      simp at hbne
    simp [hr, List.isEmpty_iff, hqne]
    omega

/-- The outer prune loop terminates without tripping the assertion and
without touching any forward buffer, as long as the byte accounting is
correct, `buffered` matches the summed back-buffer bytes, and the fuel
exceeds the number of queued packets. -/
theorem pruneLoop_spec :
    ∀ (fuel maxbw : ℕ) (streams : List DemuxStream) (buffered : ℕ),
      streamsInv streams →
      buffered = (streams.map DemuxStream.bw_bytes).sum →
      totalQueueLen streams < fuel →
      ∃ s, pruneLoop fuel maxbw streams buffered = some s ∧ streamsInv s ∧
        s.length = streams.length ∧
        (∀ (n : ℕ) (dsOld dsNew : DemuxStream),
          streams[n]? = some dsOld → s[n]? = some dsNew →
          fwList dsNew = fwList dsOld ∧ dsNew.queue <:+ dsOld.queue) := by
  intro fuel
  induction fuel with
  | zero =>
    intro maxbw streams buffered _ _ hf
    omega
  | succ fuel ih =>
    intro maxbw streams buffered hinv hbuf hf
    rw [pruneLoop]
    by_cases hstop : buffered ≤ maxbw
    · rw [if_pos hstop]
      refine ⟨streams, rfl, hinv, rfl, ?_⟩
      intro n o w ho hw
      rw [ho] at hw
      cases hw
      exact ⟨rfl, List.suffix_refl _⟩
    · rw [if_neg hstop]
      have hpos : 0 < (streams.map DemuxStream.bw_bytes).sum := by omega
      have hex : ∃ ds ∈ streams, pruneCandidate ds = true := by
        obtain ⟨ds, hmem, hp⟩ :=
          exists_pos_of_map_sum_pos DemuxStream.bw_bytes streams hpos
        exact ⟨ds, hmem, pruneCandidate_of_bw_pos (hinv ds hmem) hp⟩
      obtain ⟨n, ds, hsel, hget, hcand⟩ := selectEarliest_spec streams hex
      simp only [hsel, hget]
      have hqi : queueInv ds := hinv ds (mem_of_getElem_opt hget)
      obtain ⟨hqi2, hdle, hbw2, hfwp, hsuf, hlenle, hprog⟩ :=
        pruneStream_spec ds hqi
      have hnlt : n < streams.length := by
        by_contra hc
        rw [List.getElem?_eq_none (by omega)] at hget
        exact Option.noConfusion hget
      have hinv2 : streamsInv (setIdx (pruneStream ds).1 n streams) := by
        intro d hd
        rcases mem_setIdx n streams hd with h | h
        · rw [h]; exact hqi2
        · exact hinv d h
      have hbsum := map_sum_setIdx DemuxStream.bw_bytes (pruneStream ds).1
        n streams ds hget
      have hdlesum := getElem_opt_le_map_sum DemuxStream.bw_bytes n streams
        ds hget
      have hbuf2 : buffered - (pruneStream ds).2 =
          ((setIdx (pruneStream ds).1 n streams).map DemuxStream.bw_bytes).sum := by
        rw [hbuf]
        omega
      have hqsum := map_sum_setIdx (fun d => d.queue.length)
        (pruneStream ds).1 n streams ds hget
      have hlen2 : totalQueueLen (setIdx (pruneStream ds).1 n streams) <
          fuel := by
        have hp := hprog hcand
        unfold totalQueueLen at hf ⊢
        simp only [] at hqsum
        omega
      obtain ⟨s, hres, hsinv, hslen, hsfw⟩ := ih maxbw
        (setIdx (pruneStream ds).1 n streams) (buffered - (pruneStream ds).2)
        hinv2 hbuf2 hlen2
      refine ⟨s, hres, hsinv, ?_, ?_⟩
      · rw [hslen, setIdx_length]
      · intro m dsOld dsNew hmo hmn
        by_cases hmn2 : n = m
        · subst hmn2
          rw [hget] at hmo
          cases hmo
          have hmid : (setIdx (pruneStream ds).1 n streams)[n]? =
              some (pruneStream ds).1 :=
            getElem_opt_setIdx_self (pruneStream ds).1 n streams hnlt
          obtain ⟨hfw3, hsuf3⟩ := hsfw n (pruneStream ds).1 dsNew hmid hmn
          exact ⟨hfw3.trans hfwp, hsuf3.trans hsuf⟩
        · have hmid : (setIdx (pruneStream ds).1 n streams)[m]? = some dsOld := by
            rw [getElem_opt_setIdx_ne _ n m streams hmn2]
            exact hmo
          exact hsfw m dsOld dsNew hmid hmn


/-- The rebuild walk with the split flag already off counts everything as
forward. -/
theorem recompute_go_false (rh : Option ℕ) :
    ∀ (l : List Packet) (i p f b : ℕ),
      recompute_buffers.go rh l i false p f b =
        (p + l.length, f + sumSize l, b) := by
  intro l
  induction l with
  | nil => intro i p f b; simp [recompute_buffers.go, sumSize_nil]
  | cons dp rest ih =>
    intro i p f b
    simp [recompute_buffers.go, ih, sumSize_cons, Prod.mk.injEq]
    omega

/-- The rebuild walk with no reader pointer counts everything as back
buffer. -/
theorem recompute_go_none :
    ∀ (l : List Packet) (i p f b : ℕ),
      recompute_buffers.go none l i true p f b =
        (p, f, b + sumSize l) := by
  intro l
  induction l with
  | nil => intro i p f b; simp [recompute_buffers.go, sumSize_nil]
  | cons dp rest ih =>
    intro i p f b
    simp [recompute_buffers.go, ih, sumSize_cons, Prod.mk.injEq]
    omega

/-- The rebuild walk splits the remaining packets at absolute index `r`. -/
theorem recompute_go_some (r : ℕ) :
    ∀ (l : List Packet) (i p f b : ℕ), i ≤ r →
      recompute_buffers.go (some r) l i true p f b =
        (p + (l.drop (r - i)).length, f + sumSize (l.drop (r - i)),
         b + sumSize (l.take (r - i))) := by
  intro l
  induction l with
  | nil => intro i p f b _; simp [recompute_buffers.go, sumSize_nil]
  | cons dp rest ih =>
    intro i p f b hir
    by_cases heq : i = r
    · subst heq
      have h0 : i - i = 0 := by omega
      simp [recompute_buffers.go, recompute_go_false, h0, sumSize_cons,
        sumSize_nil, Prod.mk.injEq]
      omega
    · have hlt : i < r := by omega
      have hne : (some r : Option ℕ) ≠ some i := by
        intro hcon
        cases hcon
        omega
      have hd : r - i = (r - (i+1)) + 1 := by omega
      simp only [recompute_buffers.go, hne, ne_eq, not_false_eq_true,
        decide_eq_true_eq, Bool.true_and]
      rw [if_pos (by simp [hne])]
      rw [show (decide True) = true from rfl]
      rw [ih (i+1) p f (b + dp.totalSize) (by omega)]
      rw [hd]
      simp only [List.drop_succ_cons, List.take_succ_cons, sumSize_cons,
        Prod.mk.injEq]
      exact ⟨trivial, trivial, by omega⟩

/-- `recompute_buffers` leaves queue and reader pointer alone and rebuilds
the counters to satisfy the accounting invariant. -/
theorem queueInv_recompute_buffers (ds : DemuxStream) (h : rhOk ds = true) :
    queueInv (recompute_buffers ds) ∧
    (recompute_buffers ds).queue = ds.queue ∧
    (recompute_buffers ds).reader_head = ds.reader_head := by
  cases hr : ds.reader_head with
  | none =>
    have hres : recompute_buffers ds =
        { ds with fw_packs := 0, fw_bytes := 0,
                  bw_bytes := 0 + sumSize ds.queue } := by
      unfold recompute_buffers
      rw [hr, recompute_go_none]
    have hq : (recompute_buffers ds).queue = ds.queue := by rw [hres]
    have hrh2 : (recompute_buffers ds).reader_head = none := by
      rw [hres]
      exact hr
    have hfwl : fwList (recompute_buffers ds) = [] := fwList_none hrh2
    have hbwl : bwList (recompute_buffers ds) = ds.queue := by
      rw [bwList_none hrh2, hq]
    refine ⟨⟨?_, ?_, ?_, ?_⟩, hq, hrh2⟩
    · unfold rhOk
      rw [hrh2]
      rfl
    · rw [hfwl, hres]
      rfl
    · rw [hbwl, hres]
      simp
    · rw [hfwl, hres]
      rfl
  | some r =>
    have hres : recompute_buffers ds =
        { ds with fw_packs := 0 + (ds.queue.drop (r - 0)).length,
                  fw_bytes := 0 + sumSize (ds.queue.drop (r - 0)),
                  bw_bytes := 0 + sumSize (ds.queue.take (r - 0)) } := by
      unfold recompute_buffers
      rw [hr, recompute_go_some r ds.queue 0 0 0 0 (by omega)]
    have hq : (recompute_buffers ds).queue = ds.queue := by rw [hres]
    have hrh2 : (recompute_buffers ds).reader_head = some r := by
      rw [hres]
      exact hr
    have hfwl : fwList (recompute_buffers ds) = ds.queue.drop r := by
      rw [fwList_some hrh2, hq]
    have hbwl : bwList (recompute_buffers ds) = ds.queue.take r := by
      rw [bwList_some hrh2, hq]
    refine ⟨⟨?_, ?_, ?_, ?_⟩, hq, hrh2⟩
    · unfold rhOk at h ⊢
      rw [hrh2, hq]
      rw [hr] at h
      exact h
    · rw [hfwl, hres]
      simp
    · rw [hbwl, hres]
      simp
    · rw [hfwl, hres]
      simp


/-- `prune_old_packets` succeeds under correct accounting, preserves the
invariant and never drops forward packets. -/
theorem prune_old_packets_spec (din : DemuxInternal)
    (h : streamsInv din.streams) :
    ∃ din2, prune_old_packets din = some din2 ∧ streamsInv din2.streams ∧
      din2.streams.length = din.streams.length ∧
      (∀ (n : ℕ) (dsOld dsNew : DemuxStream),
        din.streams[n]? = some dsOld → din2.streams[n]? = some dsNew →
        fwList dsNew = fwList dsOld ∧ dsNew.queue <:+ dsOld.queue) := by
  obtain ⟨s, hres, hsinv, hslen, hsfw⟩ := pruneLoop_spec
    (totalQueueLen din.streams + 1) din.max_bytes_bw din.streams
    ((din.streams.map DemuxStream.bw_bytes).sum) h rfl (by omega)
  refine ⟨{ din with streams := s }, ?_, hsinv, hslen, hsfw⟩
  unfold prune_old_packets
  simp only [hres]

/-- `dequeue_packet` preserves the accounting invariant of every stream. -/
theorem queueInv_dequeue_packet (din : DemuxInternal) (n : ℕ)
    (r : Option Packet × DemuxInternal) (h : streamsInv din.streams)
    (hd : dequeue_packet din n = some r) : streamsInv r.2.streams := by
  unfold dequeue_packet at hd
  split at hd
  · cases hd
    exact h
  next ds hget =>
    have hds : queueInv ds := h ds (mem_of_getElem_opt hget)
    have hcore := queueInv_dequeue_core ds hds
    have hmidInv : ∀ ds2 : DemuxStream, queueInv ds2 →
        streamsInv (setIdx ds2 n din.streams) := by
      intro ds2 h2 d hdmem
      rcases mem_setIdx n din.streams hdmem with he | he
      · rw [he]; exact h2
      · exact h d he
    split at hd
    next ds2 hres =>
      cases hd
      apply hmidInv
      rw [hres] at hcore
      exact hcore
    next pkt ds2 hres =>
      cases hd
      apply hmidInv
      rw [hres] at hcore
      exact hcore
    next pkt ds2 hres =>
      simp only [] at hd
      rw [hres] at hcore
      simp only [dqStream] at hcore
      have hmid : streamsInv (dequeueFileposStep
          { din with streams := setIdx ds2 n din.streams } pkt.pos).streams := by
        unfold dequeueFileposStep
        split
        · exact hmidInv ds2 hcore
        · exact hmidInv ds2 hcore
      obtain ⟨din3, hp, hinv3, -, -⟩ := prune_old_packets_spec _ hmid
      rw [hp] at hd
      cases hd
      exact hinv3

/-- C2: the cached byte/packet counters of every stream queue agree with
the packet list split at `reader_head` — the invariant yields
`fw_bytes + bw_bytes = Σ total_size` and `fw_packs = |forward packets|`,
and it is preserved by `demux_add_packet`, `dequeue_packet` and
`prune_old_packets`, and (re)established by `recompute_buffers` (as run by
`try_seek_cache`) whenever `reader_head` points into the queue. -/
theorem queue_accounting :
    (∀ ds : DemuxStream, queueInv ds →
      ds.fw_bytes + ds.bw_bytes = sumSize ds.queue ∧
      ds.fw_packs = (fwList ds).length) ∧
    (∀ (seeking : Bool) (ds : DemuxStream) (dp : Packet), queueInv ds →
      queueInv (demux_add_packet seeking ds dp).1) ∧
    (∀ (din : DemuxInternal) (n : ℕ) (r : Option Packet × DemuxInternal),
      streamsInv din.streams → dequeue_packet din n = some r →
      streamsInv r.2.streams) ∧
    (∀ (din din2 : DemuxInternal), streamsInv din.streams →
      prune_old_packets din = some din2 → streamsInv din2.streams) ∧
    (∀ ds : DemuxStream, rhOk ds = true → queueInv (recompute_buffers ds)) := by
  refine ⟨?_, queueInv_add_packet, queueInv_dequeue_packet, ?_, ?_⟩
  · intro ds h
    obtain ⟨hrh, hfw, hbw, hfp⟩ := h
    refine ⟨?_, hfp⟩
    cases hr : ds.reader_head with
    | none =>
      rw [hfw, hbw, fwList_none hr, bwList_none hr, sumSize_nil]
      omega
    | some r =>
      rw [hfw, hbw, fwList_some hr, bwList_some hr]
      have := sumSize_take_add_drop ds.queue r
      omega
  · intro din din2 h hp
    obtain ⟨din3, hp2, hinv3, -, -⟩ := prune_old_packets_spec din h
    rw [hp2] at hp
    cases hp
    exact hinv3
  · intro ds h
    exact (queueInv_recompute_buffers ds h).1

/-- Witness for C2 at the sample cache: the invariant holds and survives
an append and a dequeue. -/
theorem queue_accounting_witness :
    queueInv (demux_add_packet false
      ((sampleDin.streams.headD sampleStream))
      (samplePkt (some 3) (some 3) true 100)).1 ∧
    (∀ r : Option Packet × DemuxInternal, dequeue_packet sampleDin 0 = some r →
      streamsInv r.2.streams) := by
  constructor
  · apply queue_accounting.2.1
    unfold queueInv
    constructor
    · decide
    · refine ⟨by decide, by decide, by decide⟩
  · intro r hr
    apply queue_accounting.2.2.1 sampleDin 0 r _ hr
    intro ds hds
    unfold queueInv
    refine ⟨?_, ?_, ?_, ?_⟩ <;> revert hds <;> revert ds <;> decide


/-- C4: `prune_old_packets` never frees `reader_head` or any packet at or
after it — every stream's forward buffer is unchanged and its new queue is
a suffix of the old one — and under correct byte accounting the pruner
always finds a stream whose queue head is before `reader_head` whenever
`buffered > max_bytes_bw` demands pruning, so `assert(earliest_stream >= 0)`
never fires (the prune completes instead of failing). -/
theorem prune_never_crosses_reader (din : DemuxInternal)
    (h : streamsInv din.streams) :
    (∃ din2, prune_old_packets din = some din2 ∧
      (∀ (n : ℕ) (dsOld dsNew : DemuxStream),
        din.streams[n]? = some dsOld → din2.streams[n]? = some dsNew →
        fwList dsNew = fwList dsOld ∧ dsNew.queue <:+ dsOld.queue)) ∧
    (∀ buffered : ℕ, buffered = (din.streams.map DemuxStream.bw_bytes).sum →
      din.max_bytes_bw < buffered →
      ∃ ds ∈ din.streams, pruneCandidate ds = true) := by
  constructor
  · obtain ⟨din2, hres, -, -, hfw⟩ := prune_old_packets_spec din h
    exact ⟨din2, hres, hfw⟩
  · intro buffered hbuf hgt
    have hpos : 0 < (din.streams.map DemuxStream.bw_bytes).sum := by omega
    obtain ⟨ds, hmem, hp⟩ :=
      exists_pos_of_map_sum_pos DemuxStream.bw_bytes din.streams hpos
    exact ⟨ds, hmem, pruneCandidate_of_bw_pos (h ds hmem) hp⟩

/-- Witness for C4: pruning the sample cache succeeds. -/
theorem prune_never_crosses_reader_witness :
    (prune_old_packets sampleDin).isSome = true := by
  have h : streamsInv sampleDin.streams := by
    intro ds hds
    unfold queueInv
    refine ⟨?_, ?_, ?_, ?_⟩ <;> revert hds <;> revert ds <;> decide
  obtain ⟨din2, hres, -⟩ := (prune_never_crosses_reader sampleDin h).1
  rw [hres]
  rfl


/-! ## C6: get_refresh_seek_pts -/

theorem refreshScan_needed (l : List DemuxStream) (a : RefreshAcc) :
    (l.foldl refreshStep a).needed =
      (a.needed || l.any (fun ds => ds.selected && ds.need_refresh)) := by
  induction l generalizing a with
  | nil => simp
  | cons ds t ih =>
    rw [List.foldl_cons, ih, List.any_cons]
    unfold refreshStep
    split
    next hsel =>
      simp [hsel, Bool.or_assoc]
    next hsel =>
      rw [Bool.not_eq_true] at hsel
      simp [hsel]

theorem refreshScan_normal (l : List DemuxStream) (a : RefreshAcc) :
    (l.foldl refreshStep a).normal =
      (a.normal && l.all (fun ds => !ds.selected || ds.need_refresh)) := by
  induction l generalizing a with
  | nil => simp
  | cons ds t ih =>
    rw [List.foldl_cons, ih, List.all_cons]
    unfold refreshStep
    split
    next hsel =>
      simp [hsel, Bool.and_assoc]
    next hsel =>
      rw [Bool.not_eq_true] at hsel
      simp [hsel]

theorem refreshScan_possible (l : List DemuxStream) (a : RefreshAcc) :
    (l.foldl refreshStep a).possible =
      (a.possible &&
        l.all (fun ds => !ds.selected || (ds.correct_dts || ds.correct_pos))) := by
  induction l generalizing a with
  | nil => simp
  | cons ds t ih =>
    rw [List.foldl_cons, ih, List.all_cons]
    unfold refreshStep
    split
    next hsel =>
      simp [hsel, Bool.and_assoc]
    next hsel =>
      rw [Bool.not_eq_true] at hsel
      simp [hsel]

theorem refreshScan_needed_iff (din : DemuxInternal) :
    (refreshScan din).needed = true ↔
      ∃ ds ∈ din.streams, ds.selected = true ∧ ds.need_refresh = true := by
  unfold refreshScan
  rw [refreshScan_needed]
  simp [List.any_eq_true]

theorem refreshScan_normal_iff (din : DemuxInternal) :
    (refreshScan din).normal = true ↔
      ∀ ds ∈ din.streams, ds.selected = true → ds.need_refresh = true := by
  unfold refreshScan
  rw [refreshScan_normal]
  simp only [Bool.true_and, List.all_eq_true, Bool.or_eq_true,
    Bool.not_eq_true]
  constructor
  · intro h ds hds hsel
    rcases h ds hds with h2 | h2
    · rw [hsel] at h2; exact Bool.noConfusion h2
    · exact h2
  · intro h ds hds
    cases hsel : ds.selected with
    | false => exact Or.inl rfl
    | true => exact Or.inr (h ds hds hsel)

theorem refreshScan_possible_iff (din : DemuxInternal) :
    (refreshScan din).possible = true ↔
      ∀ ds ∈ din.streams, ds.selected = true →
        (ds.correct_dts = true ∨ ds.correct_pos = true) := by
  unfold refreshScan
  rw [refreshScan_possible]
  simp only [Bool.true_and, List.all_eq_true, Bool.or_eq_true,
    Bool.not_eq_true]
  constructor
  · intro h ds hds hsel
    rcases h ds hds with h2 | h2
    · rw [hsel] at h2; exact Bool.noConfusion h2
    · exact h2
  · intro h ds hds
    cases hsel : ds.selected with
    | false => exact Or.inl rfl
    | true => exact Or.inr (h ds hds hsel)


/-- C6: `get_refresh_seek_pts` returns NOPTS when no selected stream needs
a refresh, when `start_ts` is NOPTS, or when the demuxer cannot seek (no
seek entry point, not seekable, or only partially seekable); with all
selected streams needing refresh it returns `start_ts` (normal seek);
otherwise, when every selected stream still has `correct_dts` or
`correct_pos`, it marks streams that have seen packets as `refreshing`
(selected ones) and returns `start_ts - 1.0`; otherwise NOPTS. -/
theorem get_refresh_seek_pts_spec (din : DemuxInternal) :
    (((¬∃ ds ∈ din.streams, ds.selected = true ∧ ds.need_refresh = true) ∨
      (refreshScan din).start_ts = none ∨
      din.has_seek_fn = false ∨ din.seekable = false ∨
      din.partially_seekable = true) →
      (get_refresh_seek_pts din).1 = none) ∧
    ((∃ ds ∈ din.streams, ds.selected = true ∧ ds.need_refresh = true) →
      (refreshScan din).start_ts ≠ none →
      din.has_seek_fn = true → din.seekable = true →
      din.partially_seekable = false →
      ((∀ ds ∈ din.streams, ds.selected = true → ds.need_refresh = true) →
        (get_refresh_seek_pts din).1 = (refreshScan din).start_ts) ∧
      (¬(∀ ds ∈ din.streams, ds.selected = true → ds.need_refresh = true) →
        (∀ ds ∈ din.streams, ds.selected = true →
          (ds.correct_dts = true ∨ ds.correct_pos = true)) →
        (get_refresh_seek_pts din).1 =
          mpAddPts (refreshScan din).start_ts (-1) ∧
        (∀ i : ℕ, (get_refresh_seek_pts din).2.streams[i]? =
          (din.streams[i]?).map
            (fun ds => markRefreshing (clearNeedRefresh ds)))) ∧
      (¬(∀ ds ∈ din.streams, ds.selected = true → ds.need_refresh = true) →
        ¬(∀ ds ∈ din.streams, ds.selected = true →
          (ds.correct_dts = true ∨ ds.correct_pos = true)) →
        (get_refresh_seek_pts din).1 = none)) := by
  constructor
  · intro h
    unfold get_refresh_seek_pts
    simp only []
    split
    · rfl
    next hcond =>
      exfalso
      apply hcond
      rcases h with h | h | h | h | h
      · exact Or.inl (by
          intro hn
          exact h ((refreshScan_needed_iff din).mp hn))
      · exact Or.inr (Or.inl h)
      · exact Or.inr (Or.inr (Or.inl (by simp [h])))
      · exact Or.inr (Or.inr (Or.inr (Or.inl (by simp [h]))))
      · exact Or.inr (Or.inr (Or.inr (Or.inr (by simp [h]))))
  · intro hneed hstart hfn hsk hpart
    have hC : ¬(¬(refreshScan din).needed = true ∨
        (refreshScan din).start_ts = none ∨
        ¬({ din with streams := din.streams.map clearNeedRefresh }
            : DemuxInternal).has_seek_fn = true ∨
        ¬({ din with streams := din.streams.map clearNeedRefresh }
            : DemuxInternal).seekable = true ∨
        ({ din with streams := din.streams.map clearNeedRefresh }
            : DemuxInternal).partially_seekable = true) := by
      intro hcon
      rcases hcon with h | h | h | h | h
      · exact h ((refreshScan_needed_iff din).mpr hneed)
      · exact hstart h
      · exact h hfn
      · exact h hsk
      · rw [hpart] at h
        exact Bool.noConfusion h
    refine ⟨?_, ?_, ?_⟩
    · intro hnorm
      unfold get_refresh_seek_pts
      simp only []
      rw [if_neg hC, if_pos ((refreshScan_normal_iff din).mpr hnorm)]
    · intro hnorm hposs
      have hn2 : ¬(refreshScan din).normal = true := by
        intro hcon
        exact hnorm ((refreshScan_normal_iff din).mp hcon)
      have hp2 : (refreshScan din).possible = true :=
        (refreshScan_possible_iff din).mpr hposs
      constructor
      · unfold get_refresh_seek_pts
        simp only []
        rw [if_neg hC, if_neg hn2, if_neg (by simp [hp2])]
      · intro i
        unfold get_refresh_seek_pts
        simp only []
        rw [if_neg hC, if_neg hn2, if_neg (by simp [hp2])]
        simp only [List.getElem?_map, Option.map_map]
        rfl
    · intro hnorm hposs
      have hp2 : ¬(refreshScan din).possible = true := by
        intro hcon
        exact hposs ((refreshScan_possible_iff din).mp hcon)
      have hn2 : ¬(refreshScan din).normal = true := by
        intro hcon
        exact hnorm ((refreshScan_normal_iff din).mp hcon)
      unfold get_refresh_seek_pts
      simp only []
      rw [if_neg hC]
      rw [if_neg hn2]
      rw [if_pos (by simpa using hp2)]

/-- A cache set up for a refresh seek (C6 witness): video selected and
already playing, audio newly selected mid-stream. -/
def refreshDin : DemuxInternal :=
  { sampleDin with
    streams :=
      [{ sampleStream with base_ts := some 5, last_pos := 100,
                           need_refresh := false },
       { sampleStream with type := StreamType.audio, base_ts := none,
                           need_refresh := true, last_pos := -1,
                           last_dts := none }],
    ref_pts := some 5 }

/-- Witness for C6: the refresh branch returns `start_ts - 1`. -/
theorem get_refresh_seek_pts_witness :
    (get_refresh_seek_pts refreshDin).1 = some 4 := by
  have h := (get_refresh_seek_pts_spec refreshDin).2
    (by decide) (by decide) (by decide) (by decide) (by decide)
  have h2 := (h.2.1 (by decide) (by decide)).1
  rw [h2]
  decide


/-! ## C7: ts_duration in the cached reader state -/

/-- A cache state whose only contributing stream has its reader position
(`base_ts` = 100) above `last_ts` (= 50, after a timestamp reset). -/
def staleDurDin : DemuxInternal :=
  { sampleDin with
    streams := [{ sampleStream with
      queue := [samplePkt (some 50) (some 50) true 100],
      reader_head := some 0, fw_packs := 1, fw_bytes := 100,
      base_ts := some 100, last_ts := some 50, back_pts := some 50 }] }

/-- Counterexample to C7 as stated: `ts_reader` (100) and `ts_max` (50) are
both known, no seek is queued and the queue holds a packet, yet
`ts_duration` stays at its initialization value -1 rather than
`max(0, ts_max - ts_reader) = 0`, because the code only assigns it when
`ts_reader <= ts_max` (demux.c:2040). -/
theorem reader_state_duration_cex :
    (get_reader_state staleDurDin).ts_reader = some 100 ∧
    (get_reader_state staleDurDin).ts_end = some 50 ∧
    staleDurDin.seeking = false ∧
    (rsScan staleDurDin).any_packets = true ∧
    (get_reader_state staleDurDin).ts_duration = -1 ∧
    ¬(get_reader_state staleDurDin).ts_duration = max 0 ((50 : ℚ) - 100) := by
  refine ⟨by decide, by decide, rfl, by decide, by decide, by decide⟩

/-- C7 (amended): `ts_duration` equals `ts_max - ts_reader` when the reader
position is known and not past `ts_max`; it is forced to 0 whenever a seek
is queued or no contributing queue holds packets; otherwise it keeps its
initialization value -1 (in particular when `ts_reader > ts_max`). -/
theorem reader_state_duration (din : DemuxInternal) :
    ((din.seeking = true ∨ (rsScan din).any_packets = false) →
      (get_reader_state din).ts_duration = 0) ∧
    (din.seeking = false → (rsScan din).any_packets = true →
      (∀ t m : ℚ, (get_reader_state din).ts_reader = some t →
        (get_reader_state din).ts_end = some m → t ≤ m →
        (get_reader_state din).ts_duration = m - t) ∧
      (∀ t m : ℚ, (get_reader_state din).ts_reader = some t →
        (get_reader_state din).ts_end = some m → m < t →
        (get_reader_state din).ts_duration = -1) ∧
      ((get_reader_state din).ts_reader = none →
        (get_reader_state din).ts_duration = -1)) := by
  have hread : (get_reader_state din).ts_reader =
      mpAddPts (rsScan din).ts_reader din.ts_offset := rfl
  have hend : (get_reader_state din).ts_end =
      mpAddPts (rsScan din).ts_max din.ts_offset := rfl
  have hdur : (get_reader_state din).ts_duration =
      rsDuration din.seeking (rsScan din).any_packets
        (mpAddPts (rsScan din).ts_reader din.ts_offset)
        (mpAddPts (rsScan din).ts_max din.ts_offset) := rfl
  constructor
  · intro h
    rw [hdur]
    unfold rsDuration
    rcases h with h | h <;> simp [h]
  · intro hseek hpack
    refine ⟨?_, ?_, ?_⟩
    · intro t m ht hm htm
      rw [hdur]
      unfold rsDuration
      rw [hread] at ht
      rw [hend] at hm
      rw [ht, hm]
      simp [hseek, hpack, htm]
    · intro t m ht hm htm
      rw [hdur]
      unfold rsDuration
      rw [hread] at ht
      rw [hend] at hm
      rw [ht, hm]
      have : ¬t ≤ m := not_le.mpr htm
      simp [hseek, hpack, this]
    · intro ht
      rw [hdur]
      unfold rsDuration
      rw [hread] at ht
      rw [ht]
      simp [hseek, hpack]

/-- Witness for C7 (amended) on the sample cache (reader at 0, newest
packet at 2). -/
theorem reader_state_duration_witness :
    (get_reader_state sampleDin).ts_duration = (2 : ℚ) - 0 :=
  ((reader_state_duration sampleDin).2 rfl (by decide)).1 0 2
    (by decide) (by decide) (by norm_num)



/-! ## C3: seek targets chosen by try_seek_cache -/

/-- A seek candidate at index `j` of `q`: a keyframe whose keyframe-range
PTS is known and, under SEEK_FORWARD, lies at/after the target. -/
def seekCand (q : List Packet) (pts : ℚ) (flags : SeekFlags) (j : ℕ) : Prop :=
  ∃ dp, q[j]? = some dp ∧ dp.keyframe = true ∧
    ∃ r, recompute_keyframe_target_pts (List.drop j q) = some r ∧
      (flags.forward = true → pts ≤ r)

/-- Soundness of the `find_seek_target` scan: any returned index is a seek
candidate of the original queue. -/
theorem fst_go_sound (q : List Packet) (pts : ℚ) (flags : SeekFlags) :
    ∀ (l : List Packet) (idx : ℕ) (td : Option ℚ) (tgt : Option ℕ),
      l = List.drop idx q →
      (∀ j, tgt = some j → seekCand q pts flags j) →
      ∀ j, find_seek_target.go pts flags l idx td tgt = some j →
        seekCand q pts flags j := by
  intro l
  induction l with
  | nil =>
    intro idx td tgt _ hinv j hres
    exact hinv j hres
  | cons dp rest ih =>
    intro idx td tgt hl hinv j hres
    have hq : q[idx]? = some dp := by
      have h0 : (List.drop idx q)[0]? = q[idx + 0]? := List.getElem?_drop q idx 0
      rw [← hl] at h0
      simpa using h0.symm
    have hrest : rest = List.drop (idx + 1) q := by
      have ht : (List.drop idx q).tail = List.drop (idx + 1) q := List.tail_drop q idx
      rw [← hl] at ht
      simpa using ht
    simp only [find_seek_target.go] at hres
    split at hres
    · exact ih (idx + 1) td tgt hrest hinv j hres
    next hk =>
      split at hres
      next => exact ih (idx + 1) td tgt hrest hinv j hres
      next rangePts hrg =>
        split at hres
        next hfw =>
          split at hres
          next => exact ih (idx + 1) td tgt hrest hinv j hres
          next hfd =>
            have hple : pts ≤ rangePts := by
              have h1 : ¬(0 < -(rangePts - pts)) := fun h0 => hfd ⟨hfw, h0⟩
              linarith [not_lt.mp h1]
            have hnew : ∀ j', (some idx : Option ℕ) = some j' →
                seekCand q pts flags j' := by
              intro j' hj'
              injection hj' with e
              subst e
              exact ⟨dp, hq, not_not.mp hk, rangePts,
                by rw [← hl]; exact hrg, fun _ => hple⟩
            cases td with
            | none => exact ih (idx + 1) _ (some idx) hrest hnew j hres
            | some t =>
              have hres2 : (if (if -(rangePts - pts) ≤ 0
                    then decide (t ≤ 0 ∧ -(rangePts - pts) ≤ t)
                    else decide (t ≤ -(rangePts - pts))) = true
                  then find_seek_target.go pts flags rest (idx + 1) (some t) tgt
                  else find_seek_target.go pts flags rest (idx + 1)
                    (some (-(rangePts - pts))) (some idx)) = some j := hres
              cases hskipb : (if -(rangePts - pts) ≤ 0
                  then decide (t ≤ 0 ∧ -(rangePts - pts) ≤ t)
                  else decide (t ≤ -(rangePts - pts))) with
              | false =>
                rw [hskipb] at hres2
                exact ih (idx + 1) _ (some idx) hrest hnew j hres2
              | true =>
                rw [hskipb] at hres2
                exact ih (idx + 1) (some t) tgt hrest hinv j hres2
        next hfw =>
          have hnew : ∀ j', (some idx : Option ℕ) = some j' →
              seekCand q pts flags j' := by
            intro j' hj'
            injection hj' with e
            subst e
            exact ⟨dp, hq, not_not.mp hk, rangePts,
              by rw [← hl]; exact hrg, fun hfw2 => absurd hfw2 hfw⟩
          split at hres
          next hfd => exact absurd hfd.1 hfw
          cases td with
          | none => exact ih (idx + 1) _ (some idx) hrest hnew j hres
          | some t =>
            have hres2 : (if (if rangePts - pts ≤ 0
                  then decide (t ≤ 0 ∧ rangePts - pts ≤ t)
                  else decide (t ≤ rangePts - pts)) = true
                then find_seek_target.go pts flags rest (idx + 1) (some t) tgt
                else find_seek_target.go pts flags rest (idx + 1)
                  (some (rangePts - pts)) (some idx)) = some j := hres
            cases hskipb : (if rangePts - pts ≤ 0
                then decide (t ≤ 0 ∧ rangePts - pts ≤ t)
                else decide (t ≤ rangePts - pts)) with
            | false =>
              rw [hskipb] at hres2
              exact ih (idx + 1) _ (some idx) hrest hnew j hres2
            | true =>
              rw [hskipb] at hres2
              exact ih (idx + 1) (some t) tgt hrest hinv j hres2

/-- Backward preference of the `find_seek_target` scan: when SEEK_FORWARD
is unset and some remaining candidate's range PTS is at/before the target
(or the running best diff is already ≤ 0), the returned index has range
PTS at/before the target. -/
theorem fst_go_le (q : List Packet) (pts : ℚ) (flags : SeekFlags)
    (hf : flags.forward = false) :
    ∀ (l : List Packet) (idx : ℕ) (td : Option ℚ) (tgt : Option ℕ),
      l = List.drop idx q →
      (∀ j, tgt = some j →
        ∃ r, recompute_keyframe_target_pts (List.drop j q) = some r ∧
          td = some (r - pts)) →
      ((∃ t, td = some t ∧ t ≤ 0) ∨
        (∃ k, idx ≤ k ∧ ∃ dk, q[k]? = some dk ∧ dk.keyframe = true ∧
          ∃ rk, recompute_keyframe_target_pts (List.drop k q) = some rk ∧
            rk ≤ pts)) →
      ∀ j, find_seek_target.go pts flags l idx td tgt = some j →
        ∃ r, recompute_keyframe_target_pts (List.drop j q) = some r ∧
          r ≤ pts := by
  intro l
  induction l with
  | nil =>
    intro idx td tgt hl hlink hd j hres
    obtain ⟨r, hr, htd⟩ := hlink j hres
    rcases hd with ⟨t, ht, ht0⟩ | ⟨k, hik, dk, hdk, _⟩
    · rw [ht] at htd
      injection htd with htd
      refine ⟨r, hr, ?_⟩
      rw [htd] at ht0
      linarith
    · have hlen : q.length ≤ idx := List.drop_eq_nil_iff.mp hl.symm
      have hnone : q[k]? = none := List.getElem?_eq_none (le_trans hlen hik)
      rw [hnone] at hdk
      exact Option.noConfusion hdk
  | cons dp rest ih =>
    intro idx td tgt hl hlink hd j hres
    have hq : q[idx]? = some dp := by
      have h0 : (List.drop idx q)[0]? = q[idx + 0]? := List.getElem?_drop q idx 0
      rw [← hl] at h0
      simpa using h0.symm
    have hrest : rest = List.drop (idx + 1) q := by
      have ht : (List.drop idx q).tail = List.drop (idx + 1) q := List.tail_drop q idx
      rw [← hl] at ht
      simpa using ht
    simp only [find_seek_target.go] at hres
    split at hres
    next hk =>
      refine ih (idx + 1) td tgt hrest hlink ?_ j hres
      rcases hd with h1 | ⟨k, hik, dk, hdk, hkf, hrk⟩
      · exact Or.inl h1
      · rcases Nat.lt_or_ge idx k with h | h
        · exact Or.inr ⟨k, by omega, dk, hdk, hkf, hrk⟩
        · exfalso
          have hke : k = idx := le_antisymm h hik
          subst hke
          rw [hq] at hdk
          injection hdk with hdk
          subst hdk
          exact hk hkf
    next hk =>
      split at hres
      next hrg =>
        refine ih (idx + 1) td tgt hrest hlink ?_ j hres
        rcases hd with h1 | ⟨k, hik, dk, hdk, hkf, rk, hrk, hrkle⟩
        · exact Or.inl h1
        · rcases Nat.lt_or_ge idx k with h | h
          · exact Or.inr ⟨k, by omega, dk, hdk, hkf, rk, hrk, hrkle⟩
          · exfalso
            have hke : k = idx := le_antisymm h hik
            subst hke
            rw [← hl, hrg] at hrk
            exact Option.noConfusion hrk
      next rangePts hrg =>
        have hdiff : (if flags.forward = true then -(rangePts - pts)
            else rangePts - pts) = rangePts - pts := by
          rw [hf]
          rfl
        rw [hdiff] at hres
        have hlinkNew : ∀ j', (some idx : Option ℕ) = some j' →
            ∃ r, recompute_keyframe_target_pts (List.drop j' q) = some r ∧
              (some (rangePts - pts) : Option ℚ) = some (r - pts) := by
          intro j' hj'
          injection hj' with e
          subst e
          exact ⟨rangePts, by rw [← hl]; exact hrg, rfl⟩
        split at hres
        next hfd =>
          rw [hf] at hfd
          exact absurd hfd.1 (by simp)
        next hfd =>
          cases td with
          | none =>
            refine ih (idx + 1) _ (some idx) hrest hlinkNew ?_ j hres
            rcases hd with ⟨t, ht, _⟩ | ⟨k, hik, dk, hdk, hkf, rk, hrk, hrkle⟩
            · exact Option.noConfusion ht
            · by_cases hke : k = idx
              · subst hke
                rw [← hl, hrg] at hrk
                injection hrk with hrk
                exact Or.inl ⟨rangePts - pts, rfl, by rw [hrk]; linarith⟩
              · exact Or.inr ⟨k, by omega, dk, hdk, hkf, rk, hrk, hrkle⟩
          | some t =>
            have hres2 : (if (if rangePts - pts ≤ 0
                  then decide (t ≤ 0 ∧ rangePts - pts ≤ t)
                  else decide (t ≤ rangePts - pts)) = true
                then find_seek_target.go pts flags rest (idx + 1) (some t) tgt
                else find_seek_target.go pts flags rest (idx + 1)
                  (some (rangePts - pts)) (some idx)) = some j := hres
            by_cases h0 : rangePts - pts ≤ 0
            · rw [if_pos h0] at hres2
              by_cases hsk : t ≤ 0 ∧ rangePts - pts ≤ t
              · rw [if_pos (decide_eq_true hsk)] at hres2
                exact ih (idx + 1) (some t) tgt hrest hlink
                  (Or.inl ⟨t, rfl, hsk.1⟩) j hres2
              · rw [if_neg (fun hcon => hsk (of_decide_eq_true hcon))] at hres2
                exact ih (idx + 1) _ (some idx) hrest hlinkNew
                  (Or.inl ⟨rangePts - pts, rfl, h0⟩) j hres2
            · rw [if_neg h0] at hres2
              by_cases hsk : t ≤ rangePts - pts
              · rw [if_pos (decide_eq_true hsk)] at hres2
                refine ih (idx + 1) (some t) tgt hrest hlink ?_ j hres2
                rcases hd with ⟨t2, ht2, ht02⟩ | ⟨k, hik, dk, hdk, hkf, rk, hrk, hrkle⟩
                · exact Or.inl ⟨t2, ht2, ht02⟩
                · by_cases hke : k = idx
                  · subst hke
                    rw [← hl, hrg] at hrk
                    injection hrk with hrk
                    exact absurd (show rangePts - pts ≤ 0 by rw [hrk]; linarith) h0
                  · exact Or.inr ⟨k, by omega, dk, hdk, hkf, rk, hrk, hrkle⟩
              · rw [if_neg (fun hcon => hsk (of_decide_eq_true hcon))] at hres2
                refine ih (idx + 1) _ (some idx) hrest hlinkNew ?_ j hres2
                rcases hd with ⟨t2, ht2, ht02⟩ | ⟨k, hik, dk, hdk, hkf, rk, hrk, hrkle⟩
                · injection ht2 with e2
                  exact absurd (show t ≤ rangePts - pts by
                    rw [e2]; linarith [not_le.mp h0]) hsk
                · by_cases hke : k = idx
                  · subst hke
                    rw [← hl, hrg] at hrk
                    injection hrk with hrk
                    exact absurd (show rangePts - pts ≤ 0 by rw [hrk]; linarith) h0
                  · exact Or.inr ⟨k, by omega, dk, hdk, hkf, rk, hrk, hrkle⟩

/-- `find_seek_target` unfolded to its scan. -/
theorem find_seek_target_eq (q : List Packet) (pts : ℚ) (flags : SeekFlags) :
    find_seek_target q pts flags = find_seek_target.go pts flags q 0 none none :=
  rfl

/-- Every index returned by `find_seek_target` is a seek candidate. -/
theorem find_seek_target_sound (q : List Packet) (pts : ℚ) (flags : SeekFlags)
    (j : ℕ) (hres : find_seek_target q pts flags = some j) :
    seekCand q pts flags j := by
  rw [find_seek_target_eq] at hres
  exact fst_go_sound q pts flags q 0 none none (List.drop_zero q).symm
    (fun j' hj' => Option.noConfusion hj') j hres

/-- For non-forward seeks, if the queue holds any keyframe range at/before
the target, the chosen keyframe's range is at/before the target. -/
theorem find_seek_target_le (q : List Packet) (pts : ℚ) (flags : SeekFlags)
    (hf : flags.forward = false)
    (hex : ∃ k, ∃ dk, q[k]? = some dk ∧ dk.keyframe = true ∧
      ∃ rk, recompute_keyframe_target_pts (List.drop k q) = some rk ∧ rk ≤ pts)
    (j : ℕ) (hres : find_seek_target q pts flags = some j) :
    ∃ r, recompute_keyframe_target_pts (List.drop j q) = some r ∧ r ≤ pts := by
  rw [find_seek_target_eq] at hres
  obtain ⟨k, hk⟩ := hex
  exact fst_go_le q pts flags hf q 0 none none (List.drop_zero q).symm
    (fun j' hj' => Option.noConfusion hj')
    (Or.inr ⟨k, Nat.zero_le k, hk⟩) j hres

/-- `seekStream` leaves the queue unchanged. -/
theorem seekStream_queue (pts : ℚ) (flags : SeekFlags) (ds : DemuxStream) :
    (seekStream pts flags ds).queue = ds.queue := rfl

/-- `seekStream` sets `reader_head` to the found target. -/
theorem seekStream_reader_head (pts : ℚ) (flags : SeekFlags) (ds : DemuxStream) :
    (seekStream pts flags ds).reader_head
      = find_seek_target ds.queue pts flags := rfl

/-- `seekStream` requests keyframe skipping exactly when no target exists. -/
theorem seekStream_skip (pts : ℚ) (flags : SeekFlags) (ds : DemuxStream) :
    (seekStream pts flags ds).skip_to_keyframe
      = (find_seek_target ds.queue pts flags).isNone := rfl

/-- After a successful `try_seek_cache`, every stream is the result of
`seekStream` at the video-adjusted target on the cleared reader state. -/
theorem try_seek_cache_streams {din : DemuxInternal} {pts : ℚ}
    {flags : SeekFlags} {din' : DemuxInternal}
    (h : try_seek_cache din pts flags = some din') :
    din'.streams = ((clear_reader_state din).streams).map
      (seekStream (videoAdjust (clear_reader_state din).streams pts flags).1
        (videoAdjust (clear_reader_state din).streams pts flags).2) := by
  simp only [try_seek_cache] at h
  split at h
  · exact Option.noConfusion h
  · split at h
    · exact Option.noConfusion h
    · split at h
      · exact Option.noConfusion h
      · injection h with h
        subst h
        rfl

/-- C3 (corrected): after a successful in-cache seek, every stream either
has no reader position with `skip_to_keyframe` set, or its `reader_head`
points at a keyframe with a known keyframe-range PTS; relative to the
video-adjusted target, that range PTS is at/after the target for
SEEK_FORWARD seeks, while for non-forward seeks it is at/before the target
only when the queue holds some keyframe range at/before the target
(`find_seek_target` otherwise falls back to the closest range after it). -/
theorem seek_cache_target (din : DemuxInternal) (pts : ℚ) (flags : SeekFlags)
    (din' : DemuxInternal) (h : try_seek_cache din pts flags = some din')
    (n : ℕ) (ds' : DemuxStream) (hds : din'.streams[n]? = some ds') :
    (ds'.reader_head = none ∧ ds'.skip_to_keyframe = true) ∨
    (∃ i dp r, ds'.reader_head = some i ∧ ds'.skip_to_keyframe = false ∧
      ds'.queue[i]? = some dp ∧ dp.keyframe = true ∧
      recompute_keyframe_target_pts (List.drop i ds'.queue) = some r ∧
      ((videoAdjust (clear_reader_state din).streams pts flags).2.forward = true →
        (videoAdjust (clear_reader_state din).streams pts flags).1 ≤ r) ∧
      (((videoAdjust (clear_reader_state din).streams pts flags).2.forward = false ∧
        ∃ k dk rk, ds'.queue[k]? = some dk ∧ dk.keyframe = true ∧
          recompute_keyframe_target_pts (List.drop k ds'.queue) = some rk ∧
          rk ≤ (videoAdjust (clear_reader_state din).streams pts flags).1) →
        r ≤ (videoAdjust (clear_reader_state din).streams pts flags).1)) := by
  have hs := try_seek_cache_streams h
  rw [hs, List.getElem?_map] at hds
  cases hds0 : (clear_reader_state din).streams[n]? with
  | none =>
    rw [hds0] at hds
    exact Option.noConfusion hds
  | some ds0 =>
    rw [hds0] at hds
    simp only [Option.map_some'] at hds
    injection hds with hds
    subst hds
    cases ht : find_seek_target ds0.queue
        (videoAdjust (clear_reader_state din).streams pts flags).1
        (videoAdjust (clear_reader_state din).streams pts flags).2 with
    | none =>
      left
      constructor
      · rw [seekStream_reader_head, ht]
      · rw [seekStream_skip, ht]
        rfl
    | some j =>
      right
      obtain ⟨dp, hdp, hkf, r, hr, hfwd⟩ :=
        find_seek_target_sound ds0.queue _ _ j ht
      refine ⟨j, dp, r, ?_, ?_, ?_, hkf, ?_, hfwd, ?_⟩
      · rw [seekStream_reader_head, ht]
      · rw [seekStream_skip, ht]
        rfl
      · rw [seekStream_queue]
        exact hdp
      · rw [seekStream_queue]
        exact hr
      · rintro ⟨hnf, k, dk, rk, hdk, hkk, hrk, hle⟩
        rw [seekStream_queue] at hdk hrk
        obtain ⟨r2, hr2, hle2⟩ :=
          find_seek_target_le ds0.queue _ _ hnf ⟨k, dk, hdk, hkk, rk, hrk, hle⟩ j ht
        rw [hr] at hr2
        injection hr2 with hr2
        rw [hr2]
        exact hle2


/-- A selected but inactive (lazily read, e.g. interleaved-subtitle) stream
holding a single keyframe packet far after the cached seek range. Being
inactive, it does not contribute to the reader state, so it does not
constrain the seek range. -/
def c3SubStream : DemuxStream :=
  { sampleStream with type := StreamType.sub, active := false,
                      queue := [samplePkt (some 100) (some 100) true 50],
                      reader_head := some 0, fw_packs := 1, fw_bytes := 50,
                      back_pts := some 100, last_ts := some 100,
                      base_ts := some 100 }

/-- The sample cache plus the inactive subtitle stream: the seek range is
still [0, 2], determined by the contributing video stream alone. -/
def c3Din : DemuxInternal :=
  { sampleDin with streams := sampleDin.streams ++ [c3SubStream] }

/-- Counterexample to C3 as stated: an in-cache hr-seek to pts = 1 (inside
the seek range [0, 2] of the contributing video stream) succeeds, yet the
subtitle stream's `reader_head` is set to its only keyframe, whose
keyframe-range PTS is 100, not ≤ 1 — with no range at/before the target in
that queue, `find_seek_target` falls back to the closest range after it. -/
theorem seek_cache_target_cex :
    ∃ din', try_seek_cache c3Din 1
        { forward := false, factor := false, hr := true } = some din' ∧
      ∃ ds', din'.streams[1]? = some ds' ∧
        ds'.reader_head = some 0 ∧
        (ds'.queue[0]?).map Packet.keyframe = some true ∧
        recompute_keyframe_target_pts (List.drop 0 ds'.queue) = some 100 ∧
        ¬((100 : ℚ) ≤ 1) :=
  ⟨_, rfl, _, rfl, rfl, rfl, rfl, by norm_num⟩

/-- The non-forward non-factor hr seek used by the C3 witness. -/
def c3WitFlags : SeekFlags := { forward := false, factor := false, hr := true }

/-- The cache state after the witness seek. -/
def c3WitDin : DemuxInternal := (try_seek_cache sampleDin 1 c3WitFlags).getD sampleDin

/-- The witness stream after the witness seek. -/
def c3WitDs : DemuxStream := (c3WitDin.streams[0]?).getD sampleStream

/-- Witness for C3 (amended) on the sample cache: an in-cache hr-seek to 1. -/
theorem seek_cache_target_witness :
    (c3WitDs.reader_head = none ∧ c3WitDs.skip_to_keyframe = true) ∨
    (∃ i dp r, c3WitDs.reader_head = some i ∧ c3WitDs.skip_to_keyframe = false ∧
      c3WitDs.queue[i]? = some dp ∧ dp.keyframe = true ∧
      recompute_keyframe_target_pts (List.drop i c3WitDs.queue) = some r ∧
      ((videoAdjust (clear_reader_state sampleDin).streams 1 c3WitFlags).2.forward = true →
        (videoAdjust (clear_reader_state sampleDin).streams 1 c3WitFlags).1 ≤ r) ∧
      (((videoAdjust (clear_reader_state sampleDin).streams 1 c3WitFlags).2.forward = false ∧
        ∃ k dk rk, c3WitDs.queue[k]? = some dk ∧ dk.keyframe = true ∧
          recompute_keyframe_target_pts (List.drop k c3WitDs.queue) = some rk ∧
          rk ≤ (videoAdjust (clear_reader_state sampleDin).streams 1 c3WitFlags).1) →
        r ≤ (videoAdjust (clear_reader_state sampleDin).streams 1 c3WitFlags).1)) :=
  seek_cache_target sampleDin 1 c3WitFlags c3WitDin (by rfl) 0 c3WitDs (by rfl)

end Demux
